import Mathlib

/-!
# webmentionR: the fetch / persist pipeline

A shallow embedding of the Go packages `webmention` (files `webmention.go`,
`workers.go`), `state` (`state.go`) and `cmd/fetch` (`command.go`) in Lean,
followed by the properties proved about it.

Conventions of the embedding

* Go `int` fields are `Int`; ids are only compared, and the one counter that is
  incremented (`MentionsSeen`) wraps at 64 bits (`wrapInt`). Go `string` is
  `String`, a Go `error` is its message, and a `nil` error is `none`.
* `time.Time` is the instant it denotes, counted in nanoseconds from the zero
  value `time.Time{}`.
* Functions of the Go standard library that the package calls (`sort.Slice`,
  `url.Parse`, `os.ReadFile`, `json.Unmarshal`) and the package-level hooks
  (`LoadFunc`, `SaveFunc`, `ReadFileFunc`) are parameters of the definitions
  that call them.
* Effects (calls of the hooks, observer notifications, channel operations) are
  recorded as a trace of events in program order.
* Where goroutines race (`doFetch`), the order in which their steps run is a
  parameter (`Schedule`).
-/

namespace Webmention

/-! ## Data model (`webmention.go`) -/

/-- Instant of a Go `time.Time`, in nanoseconds after the zero value `time.Time{}`. -/
structure Time where
  nsec : Int := 0
  deriving DecidableEq, Repr

/-- Go struct `Author` (its field `Type` is `Kind` here, `Type` being a Lean keyword). -/
structure Author where
  Kind : String := ""
  Name : String := ""
  Photo : String := ""
  URL : String := ""
  deriving DecidableEq, Repr

/-- Go struct `Content`. -/
structure Content where
  HTML : String := ""
  Text : String := ""
  deriving DecidableEq, Repr

/-- Go struct `Mention` (field `Type` is `Kind` here); every field defaults to the Go zero
value. -/
structure Mention where
  Kind : String := ""
  Author : Author := {}
  URL : String := ""
  Published : Time := {}
  WMReceived : Time := {}
  WMID : Int := 0
  WMSource : String := ""
  WMTarget : String := ""
  WMProtocol : String := ""
  Name : String := ""
  Content : Content := {}
  InReplyTo : String := ""
  WMProperty : String := ""
  WMPrivate : Bool := false
  deriving DecidableEq, Repr

/-- Go struct `Response` (field `Type` is `Kind` here). -/
structure Response where
  Kind : String := ""
  Name : String := ""
  Children : List Mention := []
  deriving DecidableEq, Repr

/-! ## `sort.Slice` -/

/-- The comparison closure `mentions[i].WMID > mentions[j].WMID` that `InsertMention`
hands to `sort.Slice`. -/
def less (a b : Mention) : Bool := decide (a.WMID > b.WMID)

/-- Descending by `WMID`, ties allowed: what `sort.SliceIsSorted` checks for `less`,
namely that no later element is `less` than an earlier one. -/
def SortedDesc (l : List Mention) : Prop := l.Pairwise (fun a b => a.WMID ≥ b.WMID)

/-- Strictly descending by `WMID`. -/
def StrictDesc (l : List Mention) : Prop := l.Pairwise (fun a b => a.WMID > b.WMID)

/-- The call `sort.Slice(mentions, less)` of the Go standard library, by its contract:
it rearranges the slice (a permutation) so that it is sorted for `less`. `sort.Slice` is
not stable, so the order it gives to elements with equal `WMID` is left open: every
property below holds for each function meeting the contract. -/
structure SliceSorter where
  sortSlice : List Mention → List Mention
  perm : ∀ l, (sortSlice l).Perm l
  sorted : ∀ l, SortedDesc (sortSlice l)

/-- Inner loop of Go's `insertionSortLessFunc`
(`for j := i; j > a && less(j, j-1); j-- { swap(j, j-1) }`): the element `x` at index `i`
moves left while it is `less` than its predecessor. The argument is the part of the slice
before `x`, nearest predecessor first; so is the result, `x` included. -/
def bubbleLeft (x : Mention) : List Mention → List Mention
  | [] => [x]
  | y :: ys => if less x y then y :: bubbleLeft x ys else x :: y :: ys

/-- Go's `insertionSortLessFunc`, the algorithm `sort.Slice` runs on slices shorter than
12 elements: the elements are taken left to right and each one is moved left by
`bubbleLeft`. -/
def insertionSort (l : List Mention) : List Mention :=
  (l.foldl (fun done x => bubbleLeft x done) []).reverse

/-- Insertion sort meets the contract of `sort.Slice`. -/
def insertionSorter : SliceSorter where
  sortSlice := insertionSort
  perm := by
    have hb : ∀ (x : Mention) (l : List Mention), (bubbleLeft x l).Perm (x :: l) := by
      intro x l
      induction l with
      | nil => exact List.Perm.refl _
      | cons y ys ih =>
        unfold bubbleLeft
        split
        · exact (List.Perm.cons y ih).trans (List.Perm.swap x y ys)
        · exact List.Perm.refl _
    have hf : ∀ (l acc : List Mention),
        (l.foldl (fun done x => bubbleLeft x done) acc).Perm (l.reverse ++ acc) := by
      intro l
      induction l with
      | nil => intro acc; simp
      | cons x xs ih =>
        intro acc
        simp only [List.foldl_cons, List.reverse_cons, List.append_assoc, List.singleton_append]
        exact (ih (bubbleLeft x acc)).trans (List.Perm.append_left _ (hb x acc))
    intro l
    unfold insertionSort
    refine (List.reverse_perm _).trans ?_
    have h := hf l []
    rw [List.append_nil] at h
    exact h.trans (List.reverse_perm l)
  sorted := by
    have hb : ∀ (x : Mention) (l : List Mention),
        l.Pairwise (fun a b => a.WMID ≤ b.WMID) →
        (bubbleLeft x l).Pairwise (fun a b => a.WMID ≤ b.WMID) ∧
        ∀ z ∈ bubbleLeft x l, z = x ∨ z ∈ l := by
      intro x l
      induction l with
      | nil => intro _; simp [bubbleLeft]
      | cons y ys ih =>
        intro h
        rw [List.pairwise_cons] at h
        obtain ⟨ih1, ih2⟩ := ih h.2
        unfold bubbleLeft
        split
        · rename_i hlt
          refine ⟨?_, ?_⟩
          · rw [List.pairwise_cons]
            refine ⟨?_, ih1⟩
            intro z hz
            rcases ih2 z hz with hzx | hzy
            · subst hzx
              have : z.WMID > y.WMID := by simpa [less] using hlt
              omega
            · exact h.1 z hzy
          · intro z hz
            rcases List.mem_cons.mp hz with hzy | hz2
            · exact Or.inr (by simp [hzy])
            · rcases ih2 z hz2 with h1 | h1
              · exact Or.inl h1
              · exact Or.inr (List.mem_cons_of_mem _ h1)
        · rename_i hlt
          refine ⟨?_, ?_⟩
          · rw [List.pairwise_cons]
            refine ⟨?_, List.pairwise_cons.mpr h⟩
            have hxy : x.WMID ≤ y.WMID := by simpa [less] using hlt
            intro z hz
            rcases List.mem_cons.mp hz with hzy | hz2
            · subst hzy; exact hxy
            · exact le_trans hxy (h.1 z hz2)
          · intro z hz
            rcases List.mem_cons.mp hz with hzx | hz2
            · exact Or.inl hzx
            · exact Or.inr hz2
    have hf : ∀ (l acc : List Mention),
        acc.Pairwise (fun a b => a.WMID ≤ b.WMID) →
        (l.foldl (fun done x => bubbleLeft x done) acc).Pairwise
          (fun a b => a.WMID ≤ b.WMID) := by
      intro l
      induction l with
      | nil => intro acc h; simpa using h
      | cons x xs ih =>
        intro acc h
        simp only [List.foldl_cons]
        exact ih _ (hb x acc h).1
    intro l
    unfold SortedDesc insertionSort
    rw [List.pairwise_reverse]
    exact hf l [] List.Pairwise.nil

/-! ## `InsertMention` (`webmention.go`) -/

/-- The `for ... range mentions` loop that opens `InsertMention`: `true` as soon as an
existing mention has the `WMID` looked for (the early `return mentions`). -/
def hasWMID (wmid : Int) : List Mention → Bool
  | [] => false
  | existingMention :: rest => if existingMention.WMID = wmid then true else hasWMID wmid rest

/-- Go `InsertMention`: the slice is returned as it is when a mention with the same `WMID`
is in it; otherwise the mention is appended and the slice is sorted by `WMID` descending. -/
def InsertMention (S : SliceSorter) (mentions : List Mention) (mention : Mention) :
    List Mention :=
  if hasWMID mention.WMID mentions then mentions
  else S.sortSlice (mentions ++ [mention])

/-! ## Strings (`strings` of the Go standard library) -/

/-- Go `strings.TrimPrefix`: `s` without the leading `pre` when it starts with it,
`s` itself otherwise. -/
def TrimPrefix (s pre : String) : String :=
  if pre.data.isPrefixOf s.data then String.mk (s.data.drop pre.data.length) else s

/-- Go `strings.TrimSuffix`: `s` without the trailing `suf` when it ends with it,
`s` itself otherwise. -/
def TrimSuffix (s suf : String) : String :=
  if suf.data.isSuffixOf s.data then
    String.mk (s.data.take (s.data.length - suf.data.length))
  else s

/-- Scan of `strings.ReplaceAll` for a non-empty `old`, left to right without overlap;
`skip` counts the characters of a matched `old` still to be dropped. -/
def replaceScan (old new : List Char) : Nat → List Char → List Char
  | _, [] => []
  | skip + 1, _ :: cs => replaceScan old new skip cs
  | 0, c :: cs =>
    if old.isPrefixOf (c :: cs) then new ++ replaceScan old new (old.length - 1) cs
    else c :: replaceScan old new 0 cs

/-- Go `strings.ReplaceAll`: every non-overlapping instance of `old` is replaced by `new`;
an empty `old` matches at the start of the string and after every character. -/
def ReplaceAll (s old new : String) : String :=
  if old.data = [] then
    String.mk (new.data ++ (s.data.map (fun c => c :: new.data)).flatten)
  else String.mk (replaceScan old.data new.data 0 s.data)

/-! ## `GenerateSlug` (`webmention.go`) -/

/-- Go `url.URL`, the fields a parsed target has. -/
structure URL where
  Scheme : String := ""
  Host : String := ""
  Path : String := ""
  RawQuery : String := ""
  Fragment : String := ""
  deriving DecidableEq, Repr

/-- Go `(*Mention).GenerateSlug`, a pair (slug, error). `urlParse` is `url.Parse` of the
standard library, which yields a URL or an error message. -/
def GenerateSlug (urlParse : String → Except String URL) (m : Mention) :
    String × Option String :=
  match urlParse m.WMTarget with
  | .error err => ("", some ("error parsing targetURL: " ++ err))
  | .ok targetURL =>
    let slug := ReplaceAll (TrimPrefix targetURL.Path "/") "/" "--"
    (TrimSuffix slug "--", none)

/-! ## `LoadMentions` (`webmention.go`) -/

/-- An error of `os.ReadFile`: its message, and whether `errors.Is(err, fs.ErrNotExist)`
holds for it. -/
structure FileError where
  msg : String
  notExist : Bool
  deriving DecidableEq, Repr

/-- Go `LoadMentions`. `ReadFileFunc` is the package hook (`os.ReadFile` by default) and
`jsonUnmarshal` is `json.Unmarshal` into a `[]Mention`. A `nil` slice is `[]`. -/
def LoadMentions (ReadFileFunc : String → Except FileError (List UInt8))
    (jsonUnmarshal : List UInt8 → Except String (List Mention)) (path : String) :
    Except String (List Mention) :=
  match ReadFileFunc path with
  | .error err => .error ("error reading file: " ++ err.msg)
  | .ok fileData =>
    if fileData.length > 0 then
      match jsonUnmarshal fileData with
      | .error err => .error ("error unmarshalling JSON: " ++ err)
      | .ok mentions => .ok mentions
    else .ok []

/-! ## Effects -/

/-- A registered `MentionObserver`, named by a number. -/
abbrev ObserverId := Nat

/-- What the workers do to the outside, in program order. -/
inductive Event where
  /-- `client.GetMentions()` -/
  | getMentions
  /-- `observer.Update(mention)` -/
  | update (observer : ObserverId) (mention : Mention)
  /-- `mentionChannel <- child` -/
  | send (child : Mention)
  /-- `close(mentionChannel)` -/
  | close
  /-- `LoadFunc(filePath)` -/
  | load (filePath : String)
  /-- `SaveFunc(filePath, mentions)` -/
  | save (filePath : String) (mentions : List Mention)
  /-- `s.Done()` on the wait group -/
  | wgDone
  deriving DecidableEq, Repr

/-- Go `AddObserver` (the same for both workers): an observer already registered is not
added again. -/
def AddObserver (observers : List ObserverId) (observer : ObserverId) : List ObserverId :=
  if observers.contains observer then observers else observers ++ [observer]

/-- Go `updateObservers` (the same for both workers): `Update` on every registered
observer, in registration order. -/
def updateObservers (observers : List ObserverId) (mention : Mention) : List Event :=
  observers.map (fun o => Event.update o mention)

/-! ## `PersistenceWorker.DoPersist` (`workers.go`) -/

/-- What `DoPersist` calls outside itself: `url.Parse`, and the hooks `LoadFunc` and
`SaveFunc` (`SaveFunc` yields `none` for a `nil` error). -/
structure PersistEnv where
  urlParse : String → Except String URL
  LoadFunc : String → Except String (List Mention)
  SaveFunc : String → List Mention → Option String

/-- Go `filepath.Join("data", "webmentions", name)` on a system whose separator is `/`.
The cleaning step of `Join` has nothing to do here: the first two elements are plain
names, and `name` is `<slug>.json` where the slug holds no `/` after `ReplaceAll`. -/
def filepathJoin (name : String) : String := "data/webmentions/" ++ name

/-- The merge loop of `DoPersist` (`for _, m := range fetchedMentions`): every record is
handed to `InsertMention` and then to `updateObservers`. The result is the final
collection and the notifications made. -/
def mergeLoop (S : SliceSorter) (observers : List ObserverId) :
    List Mention → List Mention → List Mention × List Event
  | previouslyRetrievedMentions, [] => (previouslyRetrievedMentions, [])
  | previouslyRetrievedMentions, m :: rest =>
    let r := mergeLoop S observers (InsertMention S previouslyRetrievedMentions m) rest
    (r.1, updateObservers observers m ++ r.2)

/-- Go `(*PersistenceWorker).DoPersist`: the returned error (`none` for `nil`) and the
events in program order; the deferred `s.Done()` comes last on every path. The error of
`GenerateSlug` is assigned and never read: `LoadFunc` assigns `err` anew. -/
def DoPersist (S : SliceSorter) (env : PersistEnv) (observers : List ObserverId)
    (fetchedMentions : List Mention) : Option String × List Event :=
  match fetchedMentions with
  | [] => (some "got an empty list of mentions", [Event.wgDone])
  | first :: _ =>
    let slug := (GenerateSlug env.urlParse first).1
    let filePath := filepathJoin (slug ++ ".json")
    match env.LoadFunc filePath with
    | .error err =>
      (some ("failed to save webmention: " ++ err), [Event.load filePath, Event.wgDone])
    | .ok previouslyRetrievedMentions =>
      let r := mergeLoop S observers previouslyRetrievedMentions fetchedMentions
      match env.SaveFunc filePath r.1 with
      | some err =>
        (some ("failed to save webmention: " ++ err),
          [Event.load filePath] ++ r.2 ++ [Event.save filePath r.1, Event.wgDone])
      | none =>
        (none, [Event.load filePath] ++ r.2 ++ [Event.save filePath r.1, Event.wgDone])

/-! ## `FetchWorker.DoFetch` (`workers.go`) -/

/-- What `DoFetch` meets outside itself. `client n` is the answer of the call number `n`
(from 0) of `client.GetMentions()`. `ctxDone k` tells whether the `select` statement
number `k` (from 0, in execution order) takes its `<-ctx.Done()` branch. `ctxErr` is
the message of `ctx.Err()`. -/
structure FetchEnv where
  client : Nat → Except String Response
  ctxDone : Nat → Bool
  ctxErr : String

/-- The inner loop of `DoFetch` (`for _, child := range result.Children`), started when
`k` selects have run: the observers are updated, then the `select` either sends the child
or sees the cancellation. The result tells whether the loop returned on cancellation, how
many selects have run, and the events. -/
def sendChildren (env : FetchEnv) (observers : List ObserverId) :
    List Mention → Nat → Bool × Nat × List Event
  | [], k => (false, k, [])
  | child :: rest, k =>
    if env.ctxDone k then (true, k + 1, updateObservers observers child)
    else
      let r := sendChildren env observers rest (k + 1)
      (r.1, r.2.1, updateObservers observers child ++ [Event.send child] ++ r.2.2)

/-- The outer loop of `DoFetch` (`for len(result.Children) > 0`), entered with the
children of the last answer when `calls` calls of the client and `k` selects have run.
One unit of `fuel` is spent per iteration; `none` means the fuel ran out. -/
def fetchLoop (env : FetchEnv) (observers : List ObserverId) :
    Nat → List Mention → Nat → Nat → Option (Option String × List Event)
  | 0, _, _, _ => none
  | fuel + 1, children, calls, k =>
    if children.length > 0 then
      if env.ctxDone k then some (some env.ctxErr, [])
      else
        match sendChildren env observers children (k + 1) with
        | (true, _, evs) => some (some env.ctxErr, evs)
        | (false, k1, evs) =>
          match env.client calls with
          | .error err =>
            some (some ("error getting mentions: " ++ err), evs ++ [Event.getMentions])
          | .ok result =>
            match fetchLoop env observers fuel result.Children (calls + 1) k1 with
            | none => none
            | some (err, evs1) => some (err, evs ++ [Event.getMentions] ++ evs1)
    else some (none, [])

/-- Go `(*FetchWorker).DoFetch`: the returned error (`none` for `nil`) and the events in
program order, the deferred `close(mentionChannel)` last; `none` when `fuel` iterations of
the outer loop did not reach a `return`. -/
def DoFetch (env : FetchEnv) (observers : List ObserverId) (fuel : Nat) :
    Option (Option String × List Event) :=
  match env.client 0 with
  | .error err =>
    some (some ("error getting mentions: " ++ err), [Event.getMentions, Event.close])
  | .ok result =>
    match fetchLoop env observers fuel result.Children 1 0 with
    | none => none
    | some (err, evs) => some (err, [Event.getMentions] ++ evs ++ [Event.close])

/-! ## `MetricsObserver` (`workers.go`) -/

/-- Go `Time.Equal`: the same instant. -/
def Time.Equal (t u : Time) : Bool := decide (t.nsec = u.nsec)

/-- Go `Time.After`: `t` is later than `u`. -/
def Time.After (t u : Time) : Bool := decide (t.nsec > u.nsec)

/-- Go `Time.Before`: `t` is earlier than `u`. -/
def Time.Before (t u : Time) : Bool := decide (t.nsec < u.nsec)

/-- A Go `int` (64 bits, two's complement) after an arithmetic step: the value modulo
`2^64`, taken between `-2^63` and `2^63 - 1`. -/
def wrapInt (x : Int) : Int := (x + 2 ^ 63) % 2 ^ 64 - 2 ^ 63

/-- Go struct `MetricsObserver`, without its mutex; the defaults are the Go zero
values. -/
structure MetricsObserver where
  MaxID : Int := 0
  EarliestReceived : Time := {}
  LatestReceived : Time := {}
  AllSenders : List String := []
  MentionsSeen : Int := 0
  UniqueMentions : List Int := []
  deriving DecidableEq, Repr

/-- Go `(*MetricsObserver).Update`, between `Lock` and `Unlock`. The five statements of
the body each read and write one field of their own, so the new state is given field by
field, one line per statement. -/
def MetricsObserver.Update (m : MetricsObserver) (mention : Mention) : MetricsObserver where
  MaxID := if m.MaxID = 0 ∨ mention.WMID > m.MaxID then mention.WMID else m.MaxID
  EarliestReceived :=
    if m.EarliestReceived.Equal {} || m.EarliestReceived.After mention.WMReceived then
      mention.WMReceived
    else m.EarliestReceived
  LatestReceived :=
    if m.LatestReceived.Equal {} || m.LatestReceived.Before mention.WMReceived then
      mention.WMReceived
    else m.LatestReceived
  AllSenders :=
    if m.AllSenders.contains mention.WMSource then m.AllSenders
    else m.AllSenders ++ [mention.WMSource]
  UniqueMentions :=
    if m.UniqueMentions.contains mention.WMID then m.UniqueMentions
    else m.UniqueMentions ++ [mention.WMID]
  MentionsSeen := wrapInt (m.MentionsSeen + 1)

/-! ## `ReadState` (`state/state.go`) -/

/-- Go struct `State`, without its mutex. -/
structure State where
  SinceID : Int := 0
  deriving DecidableEq, Repr

/-- Go `ReadState`, a pair (state, error). `ReadFileFunc` is the hook of the package
`state` and `jsonUnmarshal` is `json.Unmarshal` into the zero `State`: it yields the state
it leaves behind and its error. -/
def ReadState (ReadFileFunc : String → Except FileError (List UInt8))
    (jsonUnmarshal : List UInt8 → State × Option String) (stateFilePath : String) :
    State × Option String :=
  if stateFilePath ≠ "" then
    match ReadFileFunc stateFilePath with
    | .error err =>
      if err.notExist then ({}, none)
      else ({}, some ("could not open state file: " ++ err.msg))
    | .ok fileData =>
      match jsonUnmarshal fileData with
      | (fetchState, some err) => (fetchState, some ("error parsing stateFile: " ++ err))
      | (fetchState, none) => (fetchState, none)
  else ({}, none)

/-! ## The command `fetch` (`cmd/fetch/command.go`) -/

/-- A `cli.Context` of urfave/cli after the flags were parsed: the flags that are defined,
with their values. -/
structure CliContext where
  strings : List (String × String) := []
  ints : List (String × Int) := []

/-- The method `String(name)` of `cli.Context`: the value of the flag, `""` when no flag
has this name. -/
def cliString (c : CliContext) (name : String) : String := (c.strings.lookup name).getD ""

/-- The method `Int(name)` of `cli.Context`: the value of the flag, `0` when no flag has this
name. -/
def cliInt (c : CliContext) (name : String) : Int := (c.ints.lookup name).getD 0

/-- The context urfave/cli builds for `Command`: the flags `token`, `domain`,
`destination` are required, `state-file` defaults to `./fetch.webmentions.state` and
`page-size` to 10. -/
def commandContext (token domain destination : String) (stateFile : Option String)
    (pageSize : Option Int) : CliContext where
  strings := [("token", token), ("domain", domain), ("destination", destination),
    ("state-file", stateFile.getD "./fetch.webmentions.state")]
  ints := [("page-size", pageSize.getD 10)]

/-- Go struct `Context` of the package `fetch`. -/
structure Context where
  Domain : String := ""
  Token : String := ""
  State : State := {}
  PageSize : Int := 0
  deriving DecidableEq, Repr

/-- Go `NewFetchContext`: the context, or the error (with a `nil` context). The path of
the state file is asked for under the flag name `fetchState-file`. -/
def NewFetchContext (ReadFileFunc : String → Except FileError (List UInt8))
    (jsonUnmarshal : List UInt8 → State × Option String) (cliContext : CliContext) :
    Except String Context :=
  let stateFilePath := cliString cliContext "fetchState-file"
  match ReadState ReadFileFunc jsonUnmarshal stateFilePath with
  | (_, some err) => .error ("cannot read fetchState file: " ++ err)
  | (fetchState, none) =>
    .ok { Domain := cliString cliContext "domain",
          Token := cliString cliContext "token",
          PageSize := cliInt cliContext "page-size",
          State := fetchState }

/-- What the goroutine running `FetchFunc` does, as `doFetch` sees it: the records it
sends on `mentionChan` before it closes the channel, and the error it returns. -/
structure FetchRun where
  sent : List Mention
  err : Option String
  deriving DecidableEq, Repr

/-- The scheduling of the goroutines of `doFetch`. `fetchErrSeen` tells whether the
assignment `fetchErr = FetchFunc(...)` made by the fetch goroutine is seen by the test
`if fetchErr != nil` that follows the `go` statement. `written` lists the persistence
goroutines (numbered by their batch, from 0) whose step
`if persistenceErr == nil { persistenceErr = err }` ran before `persistenceErr` is read
after `wg.Wait()`, in the order they ran: `Done()` is called inside `PersistFunc`, so
`Wait` returns without waiting for that step. -/
structure Schedule where
  fetchErrSeen : Bool
  written : List Nat

/-- One step of the loop `for thisWebmention := range mentionChan`: the record is appended
to the entry of its `WMTarget` in the map `mentionsByTarget`, a new entry being made
when there is none. The map is kept as a list of entries. -/
def addByTarget : List (String × List Mention) → Mention → List (String × List Mention)
  | [], m => [(m.WMTarget, [m])]
  | (target, mentions) :: rest, m =>
    if target = m.WMTarget then (target, mentions ++ [m]) :: rest
    else (target, mentions) :: addByTarget rest m

/-- The map `mentionsByTarget` once the channel is drained. -/
def groupByTarget (received : List Mention) : List (String × List Mention) :=
  received.foldl addByTarget []

/-- The steps `if persistenceErr == nil { persistenceErr = err }` run one after the
other on the given results, from `nil`. -/
def recordErrors (results : List (Option String)) : Option String :=
  results.foldl (fun persistenceErr err => if persistenceErr = none then err else persistenceErr)
    none

/-- Go `doFetch` of the package `fetch`: the returned error (`none` for `nil`) and the
batches handed to `PersistFunc`, one goroutine each. `PersistFunc` is the hook, by its
result on a batch. Go ranges over the map in an order of its own; the batches are listed
here in the order in which their targets first arrived, and nothing below depends on that
order. Each goroutine is taken to hold the batch of its own iteration (the loop variable
is per iteration, as from Go 1.22). -/
def doFetch (PersistFunc : List Mention → Option String) (run : FetchRun)
    (sched : Schedule) : Option String × List (List Mention) :=
  match (if sched.fetchErrSeen then run.err else none) with
  | some fetchErr => (some ("error fetching webmentions: " ++ fetchErr), [])
  | none =>
    let batches := (groupByTarget run.sent).map (fun entry => entry.2)
    let results := batches.map PersistFunc
    match recordErrors (sched.written.filterMap (fun i => results.get? i)) with
    | some persistenceErr =>
      (some ("error persisting webmentions: " ++ persistenceErr), batches)
    | none => (none, batches)

/-! ## Reading a trace -/

/-- The records sent on the channel, in order. -/
def sent : List Event → List Mention
  | [] => []
  | Event.send m :: rest => m :: sent rest
  | _ :: rest => sent rest

/-- The calls of `SaveFunc`, in order. -/
def saves : List Event → List (String × List Mention)
  | [] => []
  | Event.save p ms :: rest => (p, ms) :: saves rest
  | _ :: rest => saves rest

/-- The paths given to `LoadFunc`, in order. -/
def loads : List Event → List String
  | [] => []
  | Event.load p :: rest => p :: loads rest
  | _ :: rest => loads rest

/-- The mentions a given observer was updated with, in order. -/
def updatesOf (o : ObserverId) : List Event → List Mention
  | [] => []
  | Event.update o1 m :: rest => if o1 = o then m :: updatesOf o rest else updatesOf o rest
  | _ :: rest => updatesOf o rest

/-- In the trace `tr`, whenever a record is sent, the observer `o` has been updated with
the records sent before it and with the record itself, in that order, and with nothing
else. -/
def NotifiedBeforeSend (o : ObserverId) (tr : List Event) : Prop :=
  ∀ before m after, tr = before ++ Event.send m :: after →
    updatesOf o before = sent before ++ [m]

/-- The number of calls of `client.GetMentions()`. -/
def calls : List Event → Nat
  | [] => 0
  | Event.getMentions :: rest => calls rest + 1
  | _ :: rest => calls rest

/-- The records of an answer of the client: its `Children`, none for a failed call. -/
def childrenOf : Except String Response → List Mention
  | .ok result => result.Children
  | .error _ => []

/-- The pages of the `d` calls of the client from call number `a` on, one after the
other. -/
def pagesFrom (client : Nat → Except String Response) : Nat → Nat → List Mention
  | _, 0 => []
  | a, d + 1 => childrenOf (client a) ++ pagesFrom client (a + 1) d

/-- An answer on which the outer loop stops: a failed call, or an empty page. -/
def Stops (a : Except String Response) : Prop :=
  match a with
  | .error _ => True
  | .ok result => result.Children = []

/-- The error `DoFetch` returns when it stops on the answer `a` of the client. -/
def stopError : Except String Response → Option String
  | .error err => some ("error getting mentions: " ++ err)
  | .ok _ => none

/-- The run of the fetch goroutine when `FetchFunc` is `DoFetch`: what the trace of
`DoFetch` sends, and the error it returns; `none` when `DoFetch` does not return within
the fuel. -/
def runOfDoFetch (env : FetchEnv) (observers : List ObserverId) (fuel : Nat) :
    Option FetchRun :=
  (DoFetch env observers fuel).map (fun r => { sent := sent r.2, err := r.1 })

/-- Go `strings.Trim(s, cutset)`: `s` without the leading and the trailing characters
that are in `cutset`, all of them. -/
def Trim (s cutset : String) : String :=
  String.mk (((s.data.dropWhile (fun c => cutset.data.contains c)).reverse.dropWhile
    (fun c => cutset.data.contains c)).reverse)

/-- The slug as the specification words it: the path with all leading and all trailing
separators `/` trimmed, and every remaining `/` replaced by the joiner `--`. -/
def specSlug (path : String) : String := ReplaceAll (Trim path "/") "/" "--"

/-- Go `strings.Join(elems, sep)`. -/
def joinWith (sep : String) : List String → String
  | [] => ""
  | [s] => s
  | s :: t :: rest => s ++ sep ++ joinWith sep (t :: rest)

/-- The state of a zero-valued `MetricsObserver` after `Update` was called on the given
mentions, one after the other. -/
def observeAll (mentions : List Mention) : MetricsObserver :=
  mentions.foldl MetricsObserver.Update {}

/-- The number of distinct ids of the batch `B` that no record of `E` has. -/
def distinctNewIds (E B : List Mention) : Nat :=
  ((B.map (fun x => x.WMID)).toFinset \ (E.map (fun x => x.WMID)).toFinset).card

/-- The number of records the merge loop inserts: what the final collection has more than
the loaded one. -/
def insertedCount (S : SliceSorter) (E B : List Mention) : Nat :=
  (B.foldl (InsertMention S) E).length - E.length

instance (l : List Mention) : Decidable (SortedDesc l) := by
  unfold SortedDesc; infer_instance

instance (l : List Mention) : Decidable (StrictDesc l) := by
  unfold StrictDesc; infer_instance

/-- Go `strings.Contains(s, sub)`, as a proposition: `sub` occurs in `s`. -/
def Contains (s sub : String) : Prop := sub.data <:+: s.data

instance (s sub : String) : Decidable (Contains s sub) := by
  unfold Contains; infer_instance

/-! ## Sample data (from the tests of the package) -/

/-- The slice `TestInsertMention` starts from. -/
def testMentions : List Mention := [{ WMID := 5 }, { WMID := 3 }, { WMID := 1 }]

/-- The function `url.Parse` on the targets the tests use: the first target of
`TestMention_GenerateSlug` parses, the second does not, and the empty target of a
zero-valued mention parses to the empty URL. No other target is tabulated. -/
def testUrlParse (rawURL : String) : Except String URL :=
  if rawURL = "https://example.com/path/to-the_post.html" then
    .ok { Scheme := "https", Host := "example.com", Path := "/path/to-the_post.html" }
  else if rawURL = "" then .ok {}
  else if rawURL = "httttP:// /path" then .error "invalid character in host name"
  else .error "target not tabulated"

/-- The mocks of `TestPersistenceWorker_Do`: `LoadFunc` answers `loaded`, `SaveFunc`
answers `saveErr`. -/
def testPersistEnv (loaded : Except String (List Mention)) (saveErr : Option String) :
    PersistEnv where
  urlParse := testUrlParse
  LoadFunc := fun _ => loaded
  SaveFunc := fun _ _ => saveErr

/-- An `os.ReadFile` for a directory without files: every read fails with a not-found
error. -/
def readFileMissing (path : String) : Except FileError (List UInt8) :=
  .error { msg := "open " ++ path ++ ": no such file or directory", notExist := true }

/-- The package as it runs outside the tests, on a directory without files:
`LoadFunc` is `LoadMentions` over `readFileMissing`, and every write succeeds. The JSON
decoder is never reached. -/
def firstRunEnv : PersistEnv where
  urlParse := testUrlParse
  LoadFunc := LoadMentions readFileMissing (fun _ => .error "not reached")
  SaveFunc := fun _ _ => none

/-- A client that gives the listed answers in turn, and empty pages after them. -/
def scriptedClient (answers : List (Except String Response)) (n : Nat) :
    Except String Response :=
  answers.getD n (.ok {})

/-- The page of `TestFetchWorker`. -/
def mockMentions : List Mention :=
  [{ WMID := 1, WMSource := "https://test.example.com" }, { WMID := 2 }, { WMID := 3 }]

/-- A run of `DoFetch` over scripted answers in which the selects from number
`cancelFrom` on see the cancellation. -/
def testFetchEnv (answers : List (Except String Response)) (cancelFrom : Nat) :
    FetchEnv where
  client := scriptedClient answers
  ctxDone := fun k => decide (cancelFrom ≤ k)
  ctxErr := "context canceled"

/-- A run of `DoFetch` over scripted answers that is never cancelled. -/
def uncancelledEnv (answers : List (Except String Response)) : FetchEnv where
  client := scriptedClient answers
  ctxDone := fun _ => false
  ctxErr := "context canceled"

/-- A mention whose target is the one of `TestMention_GenerateSlug`. -/
def postMention : Mention :=
  { WMID := 7, WMTarget := "https://example.com/path/to-the_post.html" }

/-- A mention whose target does not parse (from `TestMention_GenerateSlug`). -/
def badTargetMention : Mention := { WMID := 8, WMTarget := "httttP:// /path" }

/-- The first mention of `TestMetricsObserver_Update`, received at some instant `now`. -/
def mention1 : Mention :=
  { WMID := 10, WMReceived := { nsec := 1000 }, WMSource := "https://mention1.net" }

/-- The second mention of `TestMetricsObserver_Update`, received 24 hours after the
first. -/
def mention2 : Mention :=
  { WMID := 20, WMReceived := { nsec := 1000 + 86400000000000 },
    WMSource := "https://mention2.net" }

/-- A mention received 5 nanoseconds before the zero time. -/
def ancientMention : Mention := { WMID := 12, WMReceived := { nsec := -5 } }

/-- A mention stored before the run, with id 9. -/
def storedMention : Mention := { WMID := 9 }

/-- The function `url.Parse` on two targets that name one page under two schemes: both
parse, with the path `/post`. No other target is tabulated. -/
def schemeUrlParse (rawURL : String) : Except String URL :=
  if rawURL = "https://example.com/post" then
    .ok { Scheme := "https", Host := "example.com", Path := "/post" }
  else if rawURL = "http://example.com/post" then
    .ok { Scheme := "http", Host := "example.com", Path := "/post" }
  else .error "target not tabulated"

/-- A mention of the page `/post`, reached over https. -/
def httpsMention : Mention := { WMID := 1, WMTarget := "https://example.com/post" }

/-- A mention of the page `/post`, reached over http. -/
def httpMention : Mention := { WMID := 2, WMTarget := "http://example.com/post" }

/-- A run in which the file of the slug `post` holds `storedMention` and two persistence
workers run side by side: each of them loads the file before the other has saved, so
`LoadFunc` answers the stored collection to both; every write succeeds. -/
def sharedPathEnv : PersistEnv where
  urlParse := schemeUrlParse
  LoadFunc := fun _ => .ok [storedMention]
  SaveFunc := fun _ _ => none

/-- The bytes of a state file that holds the watermark 123 (the JSON object with the one
member `sinceID`, as in `TestReadState`). -/
def stateFileBytes : List UInt8 :=
  [123, 34, 115, 105, 110, 99, 101, 73, 68, 34, 58, 49, 50, 51, 125]

/-- An `os.ReadFile` for a directory that holds the default state file and nothing
else. -/
def readStateFile (path : String) : Except FileError (List UInt8) :=
  if path = "./fetch.webmentions.state" then .ok stateFileBytes
  else .error { msg := "open " ++ path ++ ": no such file or directory", notExist := true }

/-- The decoder `json.Unmarshal` into a `State`, on the bytes of the state file above; other
bytes are taken as malformed. -/
def stateUnmarshal (data : List UInt8) : State × Option String :=
  if data = stateFileBytes then ({ SinceID := 123 }, none)
  else ({}, some "invalid character")

/-- The function `url.Parse` on three targets whose path has a doubled separator or a
segment ending in hyphens: a doubled `/` after the host or at the end stays in the path.
No other target is tabulated. -/
def slashUrlParse (rawURL : String) : Except String URL :=
  if rawURL = "https://example.com//post" then
    .ok { Scheme := "https", Host := "example.com", Path := "//post" }
  else if rawURL = "https://example.com/post//" then
    .ok { Scheme := "https", Host := "example.com", Path := "/post//" }
  else if rawURL = "https://example.com/a--" then
    .ok { Scheme := "https", Host := "example.com", Path := "/a--" }
  else .error "target not tabulated"

/-! ## Lemmas on `InsertMention` -/

theorem hasWMID_eq_true_iff (w : Int) (l : List Mention) :
    hasWMID w l = true ↔ ∃ x ∈ l, x.WMID = w := by
  induction l with
  | nil => simp [hasWMID]
  | cons y ys ih =>
    unfold hasWMID
    by_cases h : y.WMID = w
    · simp [h]
    · simp [h, ih]

theorem hasWMID_iff_mem_map (w : Int) (l : List Mention) :
    hasWMID w l = true ↔ w ∈ l.map (fun x => x.WMID) := by
  rw [hasWMID_eq_true_iff, List.mem_map]

theorem insertMention_present (S : SliceSorter) (L : List Mention) (m : Mention)
    (h : hasWMID m.WMID L = true) : InsertMention S L m = L := by
  unfold InsertMention
  rw [if_pos h]

theorem insertMention_fresh (S : SliceSorter) (L : List Mention) (m : Mention)
    (h : ¬ hasWMID m.WMID L = true) : InsertMention S L m = S.sortSlice (L ++ [m]) := by
  unfold InsertMention
  rw [if_neg h]

theorem insertMention_fresh_perm (S : SliceSorter) (L : List Mention) (m : Mention)
    (h : ¬ hasWMID m.WMID L = true) : (InsertMention S L m).Perm (L ++ [m]) := by
  rw [insertMention_fresh S L m h]
  exact S.perm _

theorem insertMention_fresh_length (S : SliceSorter) (L : List Mention) (m : Mention)
    (h : ¬ hasWMID m.WMID L = true) : (InsertMention S L m).length = L.length + 1 := by
  rw [(insertMention_fresh_perm S L m h).length_eq]
  simp

theorem insertMention_fresh_sorted (S : SliceSorter) (L : List Mention) (m : Mention)
    (h : ¬ hasWMID m.WMID L = true) : SortedDesc (InsertMention S L m) := by
  rw [insertMention_fresh S L m h]
  exact S.sorted _

theorem strictDesc_nodup (l : List Mention) (h : StrictDesc l) :
    (l.map (fun x => x.WMID)).Nodup := by
  unfold List.Nodup
  rw [List.pairwise_map]
  exact List.Pairwise.imp (fun hab => ne_of_gt hab) h

theorem strictDesc_of_sorted_nodup (l : List Mention) (hs : SortedDesc l)
    (hn : (l.map (fun x => x.WMID)).Nodup) : StrictDesc l := by
  unfold List.Nodup at hn
  rw [List.pairwise_map] at hn
  unfold StrictDesc
  unfold SortedDesc at hs
  refine List.Pairwise.imp ?_ (List.Pairwise.and hs hn)
  intro a b hab
  exact lt_of_le_of_ne hab.1 (Ne.symm hab.2)

theorem insertMention_fresh_nodup (S : SliceSorter) (L : List Mention) (m : Mention)
    (h : ¬ hasWMID m.WMID L = true) (hn : (L.map (fun x => x.WMID)).Nodup) :
    ((InsertMention S L m).map (fun x => x.WMID)).Nodup := by
  have hp := (insertMention_fresh_perm S L m h).map (fun x => x.WMID)
  rw [hp.nodup_iff]
  rw [List.map_append, List.map_singleton]
  rw [List.nodup_append]
  refine ⟨hn, List.nodup_singleton _, ?_⟩
  intro a ha hb
  rw [List.mem_singleton] at hb
  subst hb
  exact h ((hasWMID_iff_mem_map _ L).mpr ha)

theorem insertMention_strictDesc (S : SliceSorter) (L : List Mention) (m : Mention)
    (hL : StrictDesc L) : StrictDesc (InsertMention S L m) := by
  by_cases h : hasWMID m.WMID L = true
  · rw [insertMention_present S L m h]
    exact hL
  · exact strictDesc_of_sorted_nodup _ (insertMention_fresh_sorted S L m h)
      (insertMention_fresh_nodup S L m h (strictDesc_nodup L hL))

theorem insertMention_fresh_ids (S : SliceSorter) (L : List Mention) (m : Mention)
    (h : ¬ hasWMID m.WMID L = true) :
    ((InsertMention S L m).map (fun x => x.WMID)).toFinset =
      insert m.WMID (L.map (fun x => x.WMID)).toFinset := by
  have hp := (insertMention_fresh_perm S L m h).map (fun x => x.WMID)
  ext a
  rw [List.mem_toFinset, hp.mem_iff]
  simp [or_comm]

theorem mergeLoop_fst (S : SliceSorter) (observers : List ObserverId)
    (E B : List Mention) : (mergeLoop S observers E B).1 = B.foldl (InsertMention S) E := by
  induction B generalizing E with
  | nil => rfl
  | cons b B ih => simp only [mergeLoop, List.foldl_cons, ih]

theorem foldl_insert_strictDesc (S : SliceSorter) (E B : List Mention)
    (hE : StrictDesc E) : StrictDesc (B.foldl (InsertMention S) E) := by
  induction B generalizing E with
  | nil => exact hE
  | cons b B ih =>
    rw [List.foldl_cons]
    exact ih _ (insertMention_strictDesc S E b hE)

theorem foldl_insert_length (S : SliceSorter) (E B : List Mention) :
    (B.foldl (InsertMention S) E).length = E.length + distinctNewIds E B := by
  induction B generalizing E with
  | nil => simp [distinctNewIds]
  | cons b B ih =>
    rw [List.foldl_cons, ih]
    by_cases h : hasWMID b.WMID E = true
    · rw [insertMention_present S E b h]
      have hm : b.WMID ∈ (E.map (fun x => x.WMID)).toFinset :=
        List.mem_toFinset.mpr ((hasWMID_iff_mem_map _ E).mp h)
      unfold distinctNewIds
      rw [List.map_cons, List.toFinset_cons, Finset.insert_sdiff_of_mem _ hm]
    · have hm : b.WMID ∉ (E.map (fun x => x.WMID)).toFinset := by
        intro hc
        exact h ((hasWMID_iff_mem_map _ E).mpr (List.mem_toFinset.mp hc))
      rw [insertMention_fresh_length S E b h]
      unfold distinctNewIds
      rw [insertMention_fresh_ids S E b h, List.map_cons, List.toFinset_cons,
        Finset.insert_sdiff_of_not_mem _ hm, Finset.sdiff_insert]
      have hne : b.WMID ∉ ((B.map (fun x => x.WMID)).toFinset \
          (E.map (fun x => x.WMID)).toFinset).erase b.WMID := Finset.not_mem_erase _ _
      have hins : insert b.WMID ((B.map (fun x => x.WMID)).toFinset \
          (E.map (fun x => x.WMID)).toFinset) =
          insert b.WMID (((B.map (fun x => x.WMID)).toFinset \
          (E.map (fun x => x.WMID)).toFinset).erase b.WMID) := by
        ext a
        by_cases ha : a = b.WMID
        · simp [ha]
        · simp [ha]
      rw [hins, Finset.card_insert_of_not_mem hne]
      omega

/-! ## C1 - C3: `InsertMention` and the merge loop -/

/-- C1: for every list `L` and every mention `m` whose WMID is the WMID of no element of
`L`, `InsertMention L m` has length `|L| + 1`, is a permutation of `L` followed by `m`, and
is sorted by WMID descending; when the ids of `L` are pairwise distinct the result is
strictly descending and has no duplicate id. This holds whatever `sort.Slice` does with
equal keys. -/
theorem InsertMention_new_id (S : SliceSorter) (L : List Mention) (m : Mention)
    (h : ∀ x ∈ L, x.WMID ≠ m.WMID) :
    (InsertMention S L m).length = L.length + 1 ∧
    (InsertMention S L m).Perm (L ++ [m]) ∧
    SortedDesc (InsertMention S L m) ∧
    ((L.map (fun x => x.WMID)).Nodup →
      StrictDesc (InsertMention S L m) ∧
      ((InsertMention S L m).map (fun x => x.WMID)).Nodup) := by
  have hf : ¬ hasWMID m.WMID L = true := by
    rw [hasWMID_eq_true_iff]
    rintro ⟨x, hx, hxm⟩
    exact h x hx hxm
  refine ⟨insertMention_fresh_length S L m hf, insertMention_fresh_perm S L m hf,
    insertMention_fresh_sorted S L m hf, ?_⟩
  intro hn
  have hn2 := insertMention_fresh_nodup S L m hf hn
  exact ⟨strictDesc_of_sorted_nodup _ (insertMention_fresh_sorted S L m hf) hn2, hn2⟩

/-- Witness of C1: the new id 4 inserted into the ids 5, 3, 1. -/
theorem InsertMention_new_id_witness :
    (∀ x ∈ testMentions, x.WMID ≠ ({ WMID := 4 } : Mention).WMID) ∧
    (InsertMention insertionSorter testMentions { WMID := 4 }).length
      = testMentions.length + 1 ∧
    StrictDesc (InsertMention insertionSorter testMentions { WMID := 4 }) :=
  ⟨by decide,
    (InsertMention_new_id insertionSorter testMentions { WMID := 4 } (by decide)).1,
    ((InsertMention_new_id insertionSorter testMentions { WMID := 4 }
      (by decide)).2.2.2 (by decide)).1⟩

/-- C2: when some element of `L` has the WMID of `m`, `InsertMention L m` is `L` itself;
and for every `L` and `m`, inserting `m` a second time changes nothing. -/
theorem InsertMention_existing_id (S : SliceSorter) (L : List Mention) (m : Mention) :
    ((∃ x ∈ L, x.WMID = m.WMID) → InsertMention S L m = L) ∧
    InsertMention S (InsertMention S L m) m = InsertMention S L m := by
  constructor
  · intro h
    exact insertMention_present S L m ((hasWMID_eq_true_iff _ L).mpr h)
  · by_cases hp : hasWMID m.WMID L = true
    · rw [insertMention_present S L m hp, insertMention_present S L m hp]
    · apply insertMention_present
      rw [hasWMID_eq_true_iff]
      refine ⟨m, ?_, rfl⟩
      rw [(insertMention_fresh_perm S L m hp).mem_iff]
      simp

/-- Witness of C2: the id 3 is among 5, 3, 1, and the list comes back as it was. -/
theorem InsertMention_existing_id_witness :
    (∃ x ∈ testMentions, x.WMID = ({ WMID := 3, Name := "again" } : Mention).WMID) ∧
    InsertMention insertionSorter testMentions { WMID := 3, Name := "again" }
      = testMentions :=
  ⟨by decide,
    (InsertMention_existing_id insertionSorter testMentions
      { WMID := 3, Name := "again" }).1 (by decide)⟩

/-- C3: for every collection `E` strictly sorted by WMID descending and every batch `B`
(ids may repeat within `B` or be in `E` already), the collection the merge loop of
`DoPersist` ends with has length `|E|` plus the number of distinct ids of `B` absent from
`E`, and is strictly sorted by WMID descending. -/
theorem mergeLoop_length_strictDesc (S : SliceSorter) (observers : List ObserverId)
    (E B : List Mention) (hE : StrictDesc E) :
    (mergeLoop S observers E B).1.length = E.length + distinctNewIds E B ∧
    StrictDesc (mergeLoop S observers E B).1 := by
  rw [mergeLoop_fst]
  exact ⟨foldl_insert_length S E B, foldl_insert_strictDesc S E B hE⟩

/-- Witness of C3: the batch 4, 3, 4, 9 merged into 5, 3, 1 gives 5 records. -/
theorem mergeLoop_length_strictDesc_witness :
    StrictDesc testMentions ∧
    (mergeLoop insertionSorter [0] testMentions
      [{ WMID := 4 }, { WMID := 3 }, { WMID := 4 }, { WMID := 9 }]).1.length
      = testMentions.length +
        distinctNewIds testMentions
          [{ WMID := 4 }, { WMID := 3 }, { WMID := 4 }, { WMID := 9 }] ∧
    StrictDesc (mergeLoop insertionSorter [0] testMentions
      [{ WMID := 4 }, { WMID := 3 }, { WMID := 4 }, { WMID := 9 }]).1 :=
  ⟨by decide,
    mergeLoop_length_strictDesc insertionSorter [0] testMentions
      [{ WMID := 4 }, { WMID := 3 }, { WMID := 4 }, { WMID := 9 }] (by decide)⟩

/-! ## Lemmas on traces -/

theorem saves_append (a b : List Event) : saves (a ++ b) = saves a ++ saves b := by
  induction a with
  | nil => rfl
  | cons e a ih => cases e <;> simp [saves, ih]

theorem loads_append (a b : List Event) : loads (a ++ b) = loads a ++ loads b := by
  induction a with
  | nil => rfl
  | cons e a ih => cases e <;> simp [loads, ih]

theorem updatesOf_append (o : ObserverId) (a b : List Event) :
    updatesOf o (a ++ b) = updatesOf o a ++ updatesOf o b := by
  induction a with
  | nil => rfl
  | cons e a ih =>
    cases e <;> simp [updatesOf, ih]
    split <;> simp

theorem saves_updateObservers (observers : List ObserverId) (m : Mention) :
    saves (updateObservers observers m) = [] := by
  induction observers with
  | nil => rfl
  | cons o os ih => simpa [updateObservers, saves] using ih

theorem loads_updateObservers (observers : List ObserverId) (m : Mention) :
    loads (updateObservers observers m) = [] := by
  induction observers with
  | nil => rfl
  | cons o os ih => simpa [updateObservers, loads] using ih

theorem updatesOf_updateObservers (o : ObserverId) (observers : List ObserverId)
    (m : Mention) :
    updatesOf o (updateObservers observers m) = List.replicate (observers.count o) m := by
  induction observers with
  | nil => rfl
  | cons o1 os ih =>
    have ih2 : updatesOf o (List.map (fun o => Event.update o m) os) =
        List.replicate (List.count o os) m := ih
    by_cases h : o1 = o
    · subst h
      simp [updateObservers, updatesOf, ih2, List.replicate_succ]
    · have h2 : ¬ (o1 == o) = true := by simpa using h
      simp [updateObservers, updatesOf, ih2, h, List.count_cons, h2]

theorem saves_mergeLoop (S : SliceSorter) (observers : List ObserverId)
    (E B : List Mention) : saves (mergeLoop S observers E B).2 = [] := by
  induction B generalizing E with
  | nil => rfl
  | cons b B ih => simp [mergeLoop, saves_append, saves_updateObservers, ih]

theorem loads_mergeLoop (S : SliceSorter) (observers : List ObserverId)
    (E B : List Mention) : loads (mergeLoop S observers E B).2 = [] := by
  induction B generalizing E with
  | nil => rfl
  | cons b B ih => simp [mergeLoop, loads_append, loads_updateObservers, ih]

theorem updatesOf_mergeLoop (S : SliceSorter) (o : ObserverId)
    (observers : List ObserverId) (E B : List Mention) :
    updatesOf o (mergeLoop S observers E B).2 =
      (B.map (fun m => List.replicate (observers.count o) m)).flatten := by
  induction B generalizing E with
  | nil => rfl
  | cons b B ih => simp [mergeLoop, updatesOf_append, updatesOf_updateObservers, ih]

theorem foldl_insert_all_present (S : SliceSorter) (E B : List Mention)
    (h : ∀ b ∈ B, ∃ x ∈ E, x.WMID = b.WMID) : B.foldl (InsertMention S) E = E := by
  induction B with
  | nil => rfl
  | cons b B ih =>
    rw [List.foldl_cons,
      insertMention_present S E b ((hasWMID_eq_true_iff _ E).mpr (h b (List.mem_cons_self _ _)))]
    exact ih (fun c hc => h c (List.mem_cons_of_mem _ hc))

theorem distinctNewIds_le (E B : List Mention) : distinctNewIds E B ≤ B.length := by
  unfold distinctNewIds
  calc ((B.map (fun x => x.WMID)).toFinset \ (E.map (fun x => x.WMID)).toFinset).card
      ≤ (B.map (fun x => x.WMID)).toFinset.card := Finset.card_le_card Finset.sdiff_subset
    _ ≤ (B.map (fun x => x.WMID)).length := List.toFinset_card_le _
    _ = B.length := List.length_map _ _

theorem contains_append_right (a b : String) : Contains (a ++ b) b := by
  unfold Contains
  rw [String.data_append]
  exact (List.suffix_append _ _).isInfix

theorem AddObserver_nodup (observers : List ObserverId) (observer : ObserverId)
    (h : observers.Nodup) : (AddObserver observers observer).Nodup := by
  unfold AddObserver
  split
  · exact h
  · rename_i hc
    rw [List.nodup_append]
    refine ⟨h, List.nodup_singleton _, ?_⟩
    intro a ha hb
    rw [List.mem_singleton] at hb
    subst hb
    exact hc (by simpa using ha)

theorem LoadMentions_read_error (ReadFileFunc : String → Except FileError (List UInt8))
    (jsonUnmarshal : List UInt8 → Except String (List Mention)) (path : String)
    (err : FileError) (h : ReadFileFunc path = .error err) :
    LoadMentions ReadFileFunc jsonUnmarshal path = .error ("error reading file: " ++ err.msg) := by
  unfold LoadMentions
  rw [h]

theorem DoPersist_slug_error_unread (S : SliceSorter) (env : PersistEnv)
    (observers : List ObserverId) (first : Mention) (rest E : List Mention) (e : String)
    (hparse : env.urlParse first.WMTarget = .error e)
    (hload : env.LoadFunc "data/webmentions/.json" = .ok E)
    (hsave : env.SaveFunc "data/webmentions/.json"
      ((first :: rest).foldl (InsertMention S) E) = none) :
    (GenerateSlug env.urlParse first).2 ≠ none ∧
    (DoPersist S env observers (first :: rest)).1 = none := by
  have hslug : GenerateSlug env.urlParse first
      = ("", some ("error parsing targetURL: " ++ e)) := by
    unfold GenerateSlug
    rw [hparse]
  have hpath : filepathJoin (("" : String) ++ ".json") = "data/webmentions/.json" := by
    decide
  constructor
  · rw [hslug]; simp
  · unfold DoPersist
    simp only [hslug, hpath, hload, mergeLoop_fst, hsave]

/-! ## C4 - C8: `DoPersist` -/

/-- C4: for every non-empty batch (`first` followed by `rest`) for which `LoadFunc` succeeds
with `E`, `DoPersist` calls `LoadFunc` once and `SaveFunc` once, both on
`data/webmentions/<slug>.json` for the slug of the first record, and what is saved is the
collection obtained by inserting the records of the batch in input order into `E`; when
every id of the batch is in `E` already, the call is still made and that collection is
`E`. -/
theorem DoPersist_saves_once (S : SliceSorter) (env : PersistEnv)
    (observers : List ObserverId) (first : Mention) (rest E : List Mention)
    (hload : env.LoadFunc
      ("data/webmentions/" ++ ((GenerateSlug env.urlParse first).1 ++ ".json")) = .ok E) :
    loads (DoPersist S env observers (first :: rest)).2 =
      ["data/webmentions/" ++ ((GenerateSlug env.urlParse first).1 ++ ".json")] ∧
    saves (DoPersist S env observers (first :: rest)).2 =
      [("data/webmentions/" ++ ((GenerateSlug env.urlParse first).1 ++ ".json"),
        (first :: rest).foldl (InsertMention S) E)] ∧
    ((∀ b ∈ first :: rest, ∃ x ∈ E, x.WMID = b.WMID) →
      (first :: rest).foldl (InsertMention S) E = E) := by
  refine ⟨?_, ?_, foldl_insert_all_present S E (first :: rest)⟩
  · unfold DoPersist
    simp only [filepathJoin, hload]
    split <;>
      simp [loads, loads_append, loads_mergeLoop]
  · unfold DoPersist
    simp only [filepathJoin, hload]
    split <;>
      simp [saves, saves_append, saves_mergeLoop, mergeLoop_fst]

/-- Witness of C4: the ids 3 and 5 are stored already; the stored list is written back to
`data/webmentions/path--to-the_post.html.json`. -/
theorem DoPersist_saves_once_witness :
    (testPersistEnv (.ok testMentions) none).LoadFunc
      ("data/webmentions/" ++
        ((GenerateSlug (testPersistEnv (.ok testMentions) none).urlParse
          { postMention with WMID := 3 }).1 ++ ".json")) = .ok testMentions ∧
    saves (DoPersist insertionSorter (testPersistEnv (.ok testMentions) none) [0]
      ({ postMention with WMID := 3 } :: [{ postMention with WMID := 5 }])).2 =
      [("data/webmentions/" ++
        ((GenerateSlug (testPersistEnv (.ok testMentions) none).urlParse
          { postMention with WMID := 3 }).1 ++ ".json"),
        ({ postMention with WMID := 3 } :: [{ postMention with WMID := 5 }]).foldl
          (InsertMention insertionSorter) testMentions)] ∧
    ({ postMention with WMID := 3 } :: [{ postMention with WMID := 5 }]).foldl
      (InsertMention insertionSorter) testMentions = testMentions :=
  ⟨rfl,
    (DoPersist_saves_once insertionSorter (testPersistEnv (.ok testMentions) none) [0]
      { postMention with WMID := 3 } [{ postMention with WMID := 5 }] testMentions rfl).2.1,
    (DoPersist_saves_once insertionSorter (testPersistEnv (.ok testMentions) none) [0]
      { postMention with WMID := 3 } [{ postMention with WMID := 5 }] testMentions
      rfl).2.2 (by decide)⟩

/-- C5, as stated, fails: the batch holds one record whose id 3 is stored already; nothing
is inserted, and the observer is notified of it all the same. -/
theorem DoPersist_notifies_duplicate :
    updatesOf 0 (DoPersist insertionSorter (testPersistEnv (.ok testMentions) none) [0]
      [{ postMention with WMID := 3 }]).2 = [{ postMention with WMID := 3 }] ∧
    insertedCount insertionSorter testMentions [{ postMention with WMID := 3 }] = 0 ∧
    (updatesOf 0 (DoPersist insertionSorter (testPersistEnv (.ok testMentions) none) [0]
      [{ postMention with WMID := 3 }]).2).length ≠
      insertedCount insertionSorter testMentions [{ postMention with WMID := 3 }] := by
  decide

/-- C5, amended: when `LoadFunc` succeeds, every registered observer is notified exactly
once per record of the batch, in input order, whether or not the record was inserted; so
the number of its `Update` calls is the length of the batch, which is at least the number
of records inserted. -/
theorem DoPersist_notifies_every_record (S : SliceSorter) (env : PersistEnv)
    (observers : List ObserverId) (o : ObserverId) (first : Mention)
    (rest E : List Mention) (ho : o ∈ observers) (hnd : observers.Nodup)
    (hload : env.LoadFunc
      ("data/webmentions/" ++ ((GenerateSlug env.urlParse first).1 ++ ".json")) = .ok E) :
    updatesOf o (DoPersist S env observers (first :: rest)).2 = first :: rest ∧
    (updatesOf o (DoPersist S env observers (first :: rest)).2).length
      = (first :: rest).length ∧
    insertedCount S E (first :: rest) ≤ (first :: rest).length := by
  have hc : observers.count o = 1 := List.count_eq_one_of_mem hnd ho
  have hflat : ∀ l : List Mention, (l.map (fun m => List.replicate 1 m)).flatten = l := by
    intro l
    induction l with
    | nil => rfl
    | cons a l ih => simp [List.replicate_succ] at ih ⊢; exact ih
  have hu : updatesOf o (DoPersist S env observers (first :: rest)).2 = first :: rest := by
    unfold DoPersist
    simp only [filepathJoin, hload]
    have hm := updatesOf_mergeLoop S o observers E (first :: rest)
    rw [hc, hflat] at hm
    split <;>
      simp [updatesOf, updatesOf_append, hm]
  refine ⟨hu, by rw [hu], ?_⟩
  unfold insertedCount
  rw [foldl_insert_length]
  have := distinctNewIds_le E (first :: rest)
  omega

/-- Witness of the amended C5: two observers, a batch of two records of which one is
new. -/
theorem DoPersist_notifies_every_record_witness :
    (1 ∈ [0, 1]) ∧ [0, 1].Nodup ∧
    (testPersistEnv (.ok testMentions) none).LoadFunc
      ("data/webmentions/" ++
        ((GenerateSlug (testPersistEnv (.ok testMentions) none).urlParse
          { postMention with WMID := 3 }).1 ++ ".json")) = .ok testMentions ∧
    updatesOf 1 (DoPersist insertionSorter (testPersistEnv (.ok testMentions) none) [0, 1]
      ({ postMention with WMID := 3 } :: [postMention])).2
      = { postMention with WMID := 3 } :: [postMention] :=
  ⟨by decide, by decide, rfl,
    (DoPersist_notifies_every_record insertionSorter
      (testPersistEnv (.ok testMentions) none) [0, 1] 1 { postMention with WMID := 3 }
      [postMention] testMentions (by decide) (by decide) rfl).1⟩

/-- C6, the code at the failing input: on the first run for a slug the file is missing,
`LoadMentions` turns the not-found error of the read into an error of its own, and
`DoPersist` returns that error after the load, without a call of `SaveFunc`. -/
theorem DoPersist_first_run_fails :
    LoadMentions readFileMissing (fun _ => .error "not reached")
        "data/webmentions/path--to-the_post.html.json" =
      .error ("error reading file: " ++
        "open data/webmentions/path--to-the_post.html.json: no such file or directory") ∧
    DoPersist insertionSorter firstRunEnv [0] [postMention] =
      (some ("failed to save webmention: error reading file: " ++
        "open data/webmentions/path--to-the_post.html.json: no such file or directory"),
        [Event.load "data/webmentions/path--to-the_post.html.json", Event.wgDone]) ∧
    saves (DoPersist insertionSorter firstRunEnv [0] [postMention]).2 = [] := by
  refine ⟨rfl, ?_, ?_⟩ <;> decide

/-- C7, the code at the failing input: the target of the first record does not parse,
`GenerateSlug` returns an error and the empty slug, and `DoPersist` goes on with the empty
slug: it loads and saves `data/webmentions/.json` and returns a nil error. -/
theorem DoPersist_ignores_slug_error :
    (GenerateSlug testUrlParse badTargetMention).2
      = some "error parsing targetURL: invalid character in host name" ∧
    DoPersist insertionSorter (testPersistEnv (.ok []) none) [] [badTargetMention] =
      (none, [Event.load "data/webmentions/.json",
        Event.save "data/webmentions/.json" [badTargetMention], Event.wgDone]) := by
  decide

/-- C8: for every non-empty batch (`first` followed by `rest`): if `LoadFunc` returns an
error, `DoPersist` returns an error whose message contains the message of the load error,
and `SaveFunc` is not called; if `LoadFunc` succeeds and `SaveFunc` returns an error,
`DoPersist` returns an error whose message contains the message of the save error. -/
theorem DoPersist_error_propagation (S : SliceSorter) (env : PersistEnv)
    (observers : List ObserverId) (first : Mention) (rest : List Mention) :
    (∀ e, env.LoadFunc
        ("data/webmentions/" ++ ((GenerateSlug env.urlParse first).1 ++ ".json")) = .error e →
      (∃ msg, (DoPersist S env observers (first :: rest)).1 = some msg ∧ Contains msg e) ∧
      saves (DoPersist S env observers (first :: rest)).2 = []) ∧
    (∀ E e, env.LoadFunc
        ("data/webmentions/" ++ ((GenerateSlug env.urlParse first).1 ++ ".json")) = .ok E →
      env.SaveFunc
        ("data/webmentions/" ++ ((GenerateSlug env.urlParse first).1 ++ ".json"))
        ((first :: rest).foldl (InsertMention S) E) = some e →
      ∃ msg, (DoPersist S env observers (first :: rest)).1 = some msg ∧ Contains msg e) := by
  constructor
  · intro e hload
    unfold DoPersist
    simp only [filepathJoin, hload]
    exact ⟨⟨_, rfl, contains_append_right _ e⟩, by simp [saves]⟩
  · intro E e hload hsave
    unfold DoPersist
    simp only [filepathJoin, hload, mergeLoop_fst, hsave]
    exact ⟨_, rfl, contains_append_right _ e⟩

/-- Witness of C8: the two failing cases of `TestPersistenceWorker_Do`. -/
theorem DoPersist_error_propagation_witness :
    ((testPersistEnv (.error "load error") none).LoadFunc
        ("data/webmentions/" ++
          ((GenerateSlug (testPersistEnv (.error "load error") none).urlParse
            postMention).1 ++ ".json")) = .error "load error" ∧
      (∃ msg, (DoPersist insertionSorter (testPersistEnv (.error "load error") none) [0]
          (postMention :: [])).1 = some msg ∧ Contains msg "load error") ∧
      saves (DoPersist insertionSorter (testPersistEnv (.error "load error") none) [0]
        (postMention :: [])).2 = []) ∧
    ∃ msg, (DoPersist insertionSorter (testPersistEnv (.ok testMentions) (some "save error"))
      [0] (postMention :: [])).1 = some msg ∧ Contains msg "save error" :=
  ⟨⟨rfl, (DoPersist_error_propagation insertionSorter
      (testPersistEnv (.error "load error") none) [0] postMention []).1 "load error" rfl⟩,
    (DoPersist_error_propagation insertionSorter
      (testPersistEnv (.ok testMentions) (some "save error")) [0] postMention []).2
      testMentions "save error" rfl rfl⟩

/-! ## Lemmas on `DoFetch` -/

theorem sent_append (a b : List Event) : sent (a ++ b) = sent a ++ sent b := by
  induction a with
  | nil => rfl
  | cons e a ih => cases e <;> simp [sent, ih]

theorem calls_append (a b : List Event) : calls (a ++ b) = calls a + calls b := by
  induction a with
  | nil => simp [calls]
  | cons e a ih =>
    cases e <;> simp [calls, ih]
    omega

theorem sent_updateObservers (observers : List ObserverId) (m : Mention) :
    sent (updateObservers observers m) = [] := by
  induction observers with
  | nil => rfl
  | cons o os ih => simpa [updateObservers, sent] using ih

theorem calls_updateObservers (observers : List ObserverId) (m : Mention) :
    calls (updateObservers observers m) = 0 := by
  induction observers with
  | nil => rfl
  | cons o os ih => simpa [updateObservers, calls] using ih

theorem close_not_mem_updateObservers (observers : List ObserverId) (m : Mention) :
    Event.close ∉ updateObservers observers m := by
  simp [updateObservers]

theorem sendChildren_uncancelled (env : FetchEnv) (observers : List ObserverId)
    (hnc : ∀ k, env.ctxDone k = false) (children : List Mention) (k : Nat) :
    (sendChildren env observers children k).1 = false ∧
    sent (sendChildren env observers children k).2.2 = children ∧
    calls (sendChildren env observers children k).2.2 = 0 := by
  induction children generalizing k with
  | nil => simp [sendChildren, sent, calls]
  | cons c cs ih =>
    obtain ⟨h1, h2, h3⟩ := ih (k + 1)
    simp [sendChildren, hnc, h1, h2, h3, sent_append, calls_append, sent_updateObservers,
      calls_updateObservers, sent, calls]

theorem close_not_mem_sendChildren (env : FetchEnv) (observers : List ObserverId)
    (children : List Mention) (k : Nat) :
    Event.close ∉ (sendChildren env observers children k).2.2 := by
  induction children generalizing k with
  | nil => simp [sendChildren]
  | cons c cs ih =>
    unfold sendChildren
    split
    · exact close_not_mem_updateObservers observers c
    · have := ih (k + 1)
      have := close_not_mem_updateObservers observers c
      simp_all

theorem close_not_mem_fetchLoop (env : FetchEnv) (observers : List ObserverId)
    (fuel : Nat) (children : List Mention) (c k : Nat) (err : Option String)
    (tr : List Event) (h : fetchLoop env observers fuel children c k = some (err, tr)) :
    Event.close ∉ tr := by
  induction fuel generalizing children c k err tr with
  | zero => simp [fetchLoop] at h
  | succ fuel ih =>
    unfold fetchLoop at h
    split at h
    · split at h
      · cases h; simp
      · have hs := close_not_mem_sendChildren env observers children (k + 1)
        split at h
        · rename_i heq
          rw [heq] at hs
          cases h; exact hs
        · rename_i heq
          rw [heq] at hs
          split at h
          · cases h; simpa using hs
          · split at h
            · cases h
            · rename_i heq2
              have := ih _ _ _ _ _ heq2
              cases h
              simp_all
    · cases h; simp

theorem fetchLoop_uncancelled (env : FetchEnv) (observers : List ObserverId)
    (hnc : ∀ k, env.ctxDone k = false) (d : Nat) :
    ∀ (q k fuel : Nat) (children : List Mention), d + 1 < fuel → children ≠ [] →
      (∀ i, i < d → ∃ r, env.client (q + 1 + i) = .ok r ∧ r.Children ≠ []) →
      Stops (env.client (q + 1 + d)) →
      ∃ tr, fetchLoop env observers fuel children (q + 1) k
          = some (stopError (env.client (q + 1 + d)), tr) ∧
        sent tr = children ++ pagesFrom env.client (q + 1) d ∧ calls tr = d + 1 := by
  induction d with
  | zero =>
    intro q k fuel children hfuel hne _ hstop
    obtain ⟨f, rfl⟩ : ∃ f, fuel = f + 2 := ⟨fuel - 2, by omega⟩
    obtain ⟨h1, h2, h3⟩ := sendChildren_uncancelled env observers hnc children (k + 1)
    have hlen : children.length > 0 := List.length_pos.mpr hne
    unfold fetchLoop
    rw [if_pos hlen, hnc k]
    simp only [Bool.false_eq_true, if_false]
    rcases hsc : sendChildren env observers children (k + 1) with ⟨b, k1, evs⟩
    rw [hsc] at h1 h2 h3
    simp only at h1 h2 h3
    subst h1
    simp only [Nat.add_zero] at hstop ⊢
    rcases hcl : env.client (q + 1) with e | r
    · simp [stopError, sent_append, calls_append, h2, h3, sent, calls, pagesFrom]
    · rw [hcl] at hstop
      simp only [Stops] at hstop
      simp [stopError, fetchLoop, hstop, sent_append, calls_append, h2, h3, sent, calls,
        pagesFrom]
  | succ d ih =>
    intro q k fuel children hfuel hne hpages hstop
    obtain ⟨f, rfl⟩ : ∃ f, fuel = f + 1 := ⟨fuel - 1, by omega⟩
    obtain ⟨h1, h2, h3⟩ := sendChildren_uncancelled env observers hnc children (k + 1)
    have hlen : children.length > 0 := List.length_pos.mpr hne
    obtain ⟨r, hr, hrne⟩ := hpages 0 (by omega)
    rw [Nat.add_zero] at hr
    rcases hsc : sendChildren env observers children (k + 1) with ⟨b, k1, evs⟩
    rw [hsc] at h1 h2 h3
    simp only at h1 h2 h3
    subst h1
    have hstop2 : Stops (env.client (q + 1 + 1 + d)) := by
      have : q + 1 + 1 + d = q + 1 + (d + 1) := by omega
      rw [this]; exact hstop
    have hpages2 : ∀ i, i < d → ∃ r, env.client (q + 1 + 1 + i) = .ok r ∧ r.Children ≠ [] := by
      intro i hi
      have : q + 1 + 1 + i = q + 1 + (i + 1) := by omega
      rw [this]; exact hpages (i + 1) (by omega)
    obtain ⟨tr, htr, hsent, hcalls⟩ := ih (q + 1) k1 f r.Children (by omega) hrne hpages2 hstop2
    have heq : q + 1 + 1 + d = q + 1 + (d + 1) := by omega
    rw [heq] at htr
    unfold fetchLoop
    rw [if_pos hlen, hnc k]
    simp only [Bool.false_eq_true, if_false, hsc, hr, htr]
    refine ⟨_, rfl, ?_, ?_⟩
    · simp [sent_append, h2, hsent, sent, pagesFrom, hr, childrenOf]
    · simp [calls_append, h3, hcalls, calls]

theorem length_pagesFrom (client : Nat → Except String Response) (a d : Nat) :
    (pagesFrom client a d).length =
      ((List.range d).map (fun i => (childrenOf (client (a + i))).length)).sum := by
  induction d generalizing a with
  | zero => rfl
  | succ d ih =>
    rw [pagesFrom, List.length_append, ih, List.range_succ_eq_map]
    simp only [List.map_cons, List.map_map, List.sum_cons, Nat.add_zero]
    congr 2
    apply List.map_congr_left
    intro i _
    simp only [Function.comp]
    congr 3
    omega

/-! ## C9, C10: `DoFetch` -/

/-- C9: with no cancellation, let the calls number 0 to `n - 1` of the client return
non-empty pages and the call number `n` return an empty page or fail. Then `DoFetch`
returns (any fuel above `n` is enough), the client has been called `n + 1` times, the
records sent on the channel are the pages 0 to `n - 1` one after the other, in order, so
that their number is the sum of the sizes of these pages; the result is nil when the call
number `n` gave an empty page, and an error whose message contains the message of the
client when that call failed. -/
theorem DoFetch_uncancelled (env : FetchEnv) (observers : List ObserverId) (n fuel : Nat)
    (hnc : ∀ k, env.ctxDone k = false)
    (hpages : ∀ i, i < n → ∃ r, env.client i = .ok r ∧ r.Children ≠ [])
    (hstop : Stops (env.client n)) (hfuel : n < fuel) :
    ∃ tr, DoFetch env observers fuel = some (stopError (env.client n), tr) ∧
      sent tr = pagesFrom env.client 0 n ∧
      (sent tr).length =
        ((List.range n).map (fun i => (childrenOf (env.client i)).length)).sum ∧
      calls tr = n + 1 ∧
      (∀ r, env.client n = .ok r → stopError (env.client n) = none) ∧
      (∀ e, env.client n = .error e →
        ∃ msg, stopError (env.client n) = some msg ∧ Contains msg e) := by
  have hlen := length_pagesFrom env.client 0 n
  simp only [Nat.zero_add] at hlen
  have hres : (∀ r, env.client n = .ok r → stopError (env.client n) = none) ∧
      (∀ e, env.client n = .error e →
        ∃ msg, stopError (env.client n) = some msg ∧ Contains msg e) := by
    constructor
    · intro r hr; rw [hr]; rfl
    · intro e he; rw [he]; exact ⟨_, rfl, contains_append_right _ e⟩
  cases n with
  | zero =>
    obtain ⟨f, rfl⟩ : ∃ f, fuel = f + 1 := ⟨fuel - 1, by omega⟩
    rcases hcl : env.client 0 with e | r
    · rw [hcl] at hres
      refine ⟨[Event.getMentions, Event.close], ?_, ?_, ?_, ?_, hres⟩
      · simp only [DoFetch, hcl, stopError]
      · simp [sent, pagesFrom]
      · simp [sent]
      · simp [calls]
    · rw [hcl] at hstop hres
      simp only [Stops] at hstop
      refine ⟨[Event.getMentions, Event.close], ?_, ?_, ?_, ?_, hres⟩
      · simp [DoFetch, hcl, stopError, fetchLoop, hstop]
      · simp [sent, pagesFrom]
      · simp [sent]
      · simp [calls]
  | succ m =>
    obtain ⟨r0, hr0, hne0⟩ := hpages 0 (by omega)
    have hpages2 : ∀ i, i < m → ∃ r, env.client (0 + 1 + i) = .ok r ∧ r.Children ≠ [] := by
      intro i hi
      have : 0 + 1 + i = i + 1 := by omega
      rw [this]; exact hpages (i + 1) (by omega)
    have hstop2 : Stops (env.client (0 + 1 + m)) := by
      have : 0 + 1 + m = m + 1 := by omega
      rw [this]; exact hstop
    obtain ⟨tr, htr, hsent, hcalls⟩ :=
      fetchLoop_uncancelled env observers hnc m 0 0 fuel r0.Children (by omega) hne0
        hpages2 hstop2
    have heq : 0 + 1 + m = m + 1 := by omega
    rw [heq] at htr
    simp only [Nat.zero_add] at htr hsent
    have hs : sent ([Event.getMentions] ++ tr ++ [Event.close])
        = pagesFrom env.client 0 (m + 1) := by
      simp [sent_append, sent, hsent, pagesFrom, hr0, childrenOf]
    refine ⟨[Event.getMentions] ++ tr ++ [Event.close], ?_, hs, ?_, ?_, hres⟩
    · simp only [DoFetch, hr0, htr]
    · rw [hs]; exact hlen
    · simp [calls_append, calls, hcalls]

/-- Witness of C9: two pages of three records, then a failed call: six records are sent
and the error of the client is in the result. -/
theorem DoFetch_uncancelled_witness :
    (∀ k, (uncancelledEnv [.ok { Children := mockMentions },
      .ok { Children := mockMentions }, .error "client fetch error"]).ctxDone k = false) ∧
    ∃ tr, DoFetch (uncancelledEnv [.ok { Children := mockMentions },
        .ok { Children := mockMentions }, .error "client fetch error"]) [0] 3
        = some (some "error getting mentions: client fetch error", tr) ∧
      sent tr = mockMentions ++ mockMentions :=
  ⟨fun _ => rfl,
    (DoFetch_uncancelled (uncancelledEnv [.ok { Children := mockMentions },
        .ok { Children := mockMentions }, .error "client fetch error"]) [0] 2 3
      (fun _ => rfl)
      (by
        intro i hi
        rcases i with _ | _ | i
        · exact ⟨_, rfl, by decide⟩
        · exact ⟨_, rfl, by decide⟩
        · omega)
      trivial (by decide)).imp (fun _ h => ⟨h.1, h.2.1⟩)⟩

/-- C10: whenever `DoFetch` returns (on an empty page, on a failure of the client at the
first or at a later call, on a cancellation seen at the top of the loop or at a send), the
events are those of the body followed by one `close(mentionChannel)`: the body closes
nothing, so the channel is closed exactly once, and nothing is sent after the close. -/
theorem DoFetch_closes_once (env : FetchEnv) (observers : List ObserverId) (fuel : Nat)
    (err : Option String) (tr : List Event)
    (h : DoFetch env observers fuel = some (err, tr)) :
    (∃ body, tr = body ++ [Event.close] ∧ Event.close ∉ body) ∧
    tr.count Event.close = 1 ∧
    (∀ before after, tr = before ++ Event.close :: after → sent after = []) := by
  have hb : ∃ body, tr = body ++ [Event.close] ∧ Event.close ∉ body := by
    unfold DoFetch at h
    split at h
    · cases h
      exact ⟨[Event.getMentions], rfl, by simp⟩
    · split at h
      · cases h
      · rename_i heq
        have hn := close_not_mem_fetchLoop env observers _ _ _ _ _ _ heq
        cases h
        exact ⟨_, rfl, by simpa using hn⟩
  obtain ⟨body, rfl, hnot⟩ := hb
  refine ⟨⟨body, rfl, hnot⟩, ?_, ?_⟩
  · rw [List.count_append, List.count_eq_zero_of_not_mem hnot]
    simp
  · intro before after heq
    have hafter : after = [] := by
      rcases List.eq_nil_or_concat after with hnil | ⟨l, a, hla⟩
      · exact hnil
      · exfalso
        subst hla
        have h2 : body ++ [Event.close] = (before ++ Event.close :: l) ++ [a] := by
          simpa using heq
        have h3 := List.append_inj_left' h2 rfl
        apply hnot
        rw [h3]
        simp
    rw [hafter]
    rfl

/-- Witness of C10, one run per exit path: an empty page after one page, a failure of the
first call, a failure of the second call, a cancellation seen at the top of the loop, and
a cancellation seen at the send of the second record. -/
theorem DoFetch_closes_once_witness :
    (∃ tr, DoFetch (uncancelledEnv [.ok { Children := mockMentions }]) [0] 2
        = some (none, tr) ∧ tr.count Event.close = 1) ∧
    (∃ tr, DoFetch (uncancelledEnv [.error "client fetch error"]) [0] 0
        = some (some "error getting mentions: client fetch error", tr) ∧
      tr.count Event.close = 1) ∧
    (∃ tr, DoFetch (uncancelledEnv [.ok { Children := mockMentions },
          .error "client fetch error"]) [0] 1
        = some (some "error getting mentions: client fetch error", tr) ∧
      tr.count Event.close = 1) ∧
    (∃ tr, DoFetch (testFetchEnv [.ok { Children := mockMentions }] 0) [0] 1
        = some (some "context canceled", tr) ∧ tr.count Event.close = 1) ∧
    (∃ tr, DoFetch (testFetchEnv [.ok { Children := mockMentions }] 2) [0] 1
        = some (some "context canceled", tr) ∧ tr.count Event.close = 1) :=
  ⟨⟨_, rfl, (DoFetch_closes_once (uncancelledEnv [.ok { Children := mockMentions }])
      [0] 2 _ _ rfl).2.1⟩,
    ⟨_, rfl, (DoFetch_closes_once (uncancelledEnv [.error "client fetch error"])
      [0] 0 _ _ rfl).2.1⟩,
    ⟨_, rfl, (DoFetch_closes_once (uncancelledEnv [.ok { Children := mockMentions },
      .error "client fetch error"]) [0] 1 _ _ rfl).2.1⟩,
    ⟨_, rfl, (DoFetch_closes_once (testFetchEnv [.ok { Children := mockMentions }] 0)
      [0] 1 _ _ rfl).2.1⟩,
    ⟨_, rfl, (DoFetch_closes_once (testFetchEnv [.ok { Children := mockMentions }] 2)
      [0] 1 _ _ rfl).2.1⟩⟩

/-! ## C11, C12: `DoFetch`, cancellation and observers -/

/-- C11, as stated, fails: the cancellation has fired before `DoFetch` starts and the first
page of the client is empty (the client of the test "When DoFetch is canceled");
`DoFetch` returns nil, not the cancellation error. When the first call fails, it returns
the error of the client. -/
theorem DoFetch_cancelled_returns_nil :
    (∀ k, (testFetchEnv [.ok {}] 0).ctxDone k = true) ∧
    DoFetch (testFetchEnv [.ok {}] 0) [0] 1
      = some (none, [Event.getMentions, Event.close]) ∧
    DoFetch (testFetchEnv [.error "client fetch error"] 0) [0] 1
      = some (some "error getting mentions: client fetch error",
          [Event.getMentions, Event.close]) := by
  refine ⟨?_, ?_, ?_⟩
  · intro k
    simp [testFetchEnv]
  · decide
  · decide

/-- C11, amended: if the cancellation has fired when `DoFetch` starts (the first `select`
takes its `<-ctx.Done()` branch), then for every client `DoFetch` returns without a record
sent on the channel; it returns the cancellation error `ctx.Err()` when the first call of
the client gives a non-empty page, the error of the client when that call fails, and nil
when it gives an empty page. -/
theorem DoFetch_cancelled_at_start (env : FetchEnv) (observers : List ObserverId)
    (fuel : Nat) (hc : env.ctxDone 0 = true) (hfuel : 0 < fuel) :
    ∃ err tr, DoFetch env observers fuel = some (err, tr) ∧ sent tr = [] ∧
      (∀ r, env.client 0 = .ok r → r.Children ≠ [] → err = some env.ctxErr) ∧
      (∀ e, env.client 0 = .error e → err = some ("error getting mentions: " ++ e)) ∧
      (∀ r, env.client 0 = .ok r → r.Children = [] → err = none) := by
  obtain ⟨f, rfl⟩ : ∃ f, fuel = f + 1 := ⟨fuel - 1, by omega⟩
  rcases hcl : env.client 0 with e | r
  · refine ⟨some ("error getting mentions: " ++ e), [Event.getMentions, Event.close],
      ?_, ?_, ?_, ?_, ?_⟩
    · simp only [DoFetch, hcl]
    · simp [sent]
    · intro r hr; cases hr
    · intro e2 he; cases he; rfl
    · intro r hr; cases hr
  · by_cases hne : r.Children = []
    · refine ⟨none, [Event.getMentions, Event.close], ?_, ?_, ?_, ?_, ?_⟩
      · simp [DoFetch, hcl, fetchLoop, hne]
      · simp [sent]
      · intro r2 hr h2; cases hr; exact absurd hne h2
      · intro e he; cases he
      · intro _ _ _; rfl
    · have hlen : r.Children.length > 0 := List.length_pos.mpr hne
      refine ⟨some env.ctxErr, [Event.getMentions, Event.close], ?_, ?_, ?_, ?_, ?_⟩
      · simp [DoFetch, hcl, fetchLoop, hlen, hc]
      · simp [sent]
      · intro _ _ _; rfl
      · intro e he; cases he
      · intro r2 hr h2; cases hr; exact absurd h2 hne

/-- Witness of the amended C11: the page of `TestFetchWorker`, cancelled from the start:
nothing is sent and the cancellation error comes back. -/
theorem DoFetch_cancelled_at_start_witness :
    (testFetchEnv [.ok { Children := mockMentions }] 0).ctxDone 0 = true ∧ 0 < 1 ∧
    ∃ err tr, DoFetch (testFetchEnv [.ok { Children := mockMentions }] 0) [0] 1
        = some (err, tr) ∧ sent tr = [] ∧ err = some "context canceled" :=
  ⟨rfl, by decide,
    (DoFetch_cancelled_at_start (testFetchEnv [.ok { Children := mockMentions }] 0) [0] 1
      rfl (by decide)).imp (fun _ h => h.imp (fun _ h2 =>
        ⟨h2.1, h2.2.1, h2.2.2.1 { Children := mockMentions } rfl (by decide)⟩))⟩

theorem send_split (a b before after : List Event) (m : Mention)
    (h : a ++ b = before ++ Event.send m :: after) :
    (∃ a2, a = before ++ Event.send m :: a2 ∧ after = a2 ++ b) ∨
    (∃ b1, before = a ++ b1 ∧ b = b1 ++ Event.send m :: after) := by
  rcases List.append_eq_append_iff.mp h with ⟨a1, h1, h2⟩ | ⟨c1, h1, h2⟩
  · exact Or.inr ⟨a1, h1, h2⟩
  · cases c1 with
    | nil =>
      refine Or.inr ⟨[], ?_, ?_⟩
      · simpa using h1.symm
      · simpa using h2.symm
    | cons x c2 =>
      simp only [List.cons_append, List.cons.injEq] at h2
      obtain ⟨hx, h3⟩ := h2
      subst hx
      exact Or.inl ⟨c2, h1, h3⟩

theorem no_send_split (a before after : List Event) (m : Mention) (h : sent a = []) :
    a ≠ before ++ Event.send m :: after := by
  intro heq
  rw [heq, sent_append] at h
  simp [sent] at h

theorem notified_of_no_send (o : ObserverId) (a : List Event) (h : sent a = []) :
    NotifiedBeforeSend o a := by
  intro before m after heq
  exact absurd heq (no_send_split a before after m h)

theorem notified_append (o : ObserverId) (a b : List Event)
    (hbal : updatesOf o a = sent a) (ha : NotifiedBeforeSend o a)
    (hb : NotifiedBeforeSend o b) : NotifiedBeforeSend o (a ++ b) := by
  intro before m after heq
  rcases send_split a b before after m heq with ⟨a2, h1, _⟩ | ⟨b1, h1, h2⟩
  · exact ha before m a2 h1
  · rw [h1, updatesOf_append, sent_append, hbal, hb b1 m after h2, List.append_assoc]

theorem notified_append_no_send (o : ObserverId) (a b : List Event)
    (ha : NotifiedBeforeSend o a) (hb : sent b = []) : NotifiedBeforeSend o (a ++ b) := by
  intro before m after heq
  rcases send_split a b before after m heq with ⟨a2, h1, _⟩ | ⟨b1, _, h2⟩
  · exact ha before m a2 h1
  · exact absurd h2 (no_send_split b b1 after m hb)

theorem notified_block (o : ObserverId) (observers : List ObserverId) (c : Mention)
    (hc : observers.count o = 1) :
    NotifiedBeforeSend o (updateObservers observers c ++ [Event.send c]) ∧
    updatesOf o (updateObservers observers c ++ [Event.send c])
      = sent (updateObservers observers c ++ [Event.send c]) := by
  constructor
  · intro before m after heq
    rcases send_split _ _ before after m heq with ⟨a2, h1, _⟩ | ⟨b1, h1, h2⟩
    · exact absurd h1 (no_send_split _ before a2 m (sent_updateObservers observers c))
    · cases b1 with
      | nil =>
        simp only [List.nil_append, List.cons.injEq, Event.send.injEq] at h2
        obtain ⟨hm, _⟩ := h2
        subst hm
        rw [h1, List.append_nil, updatesOf_updateObservers, hc, sent_updateObservers]
        rfl
      | cons x b2 =>
        simp only [List.cons_append, List.cons.injEq] at h2
        obtain ⟨_, h3⟩ := h2
        have := congrArg List.length h3
        simp at this
        omega
  · rw [updatesOf_append, sent_append, updatesOf_updateObservers, hc, sent_updateObservers]
    simp [updatesOf, sent]

theorem notified_sendChildren (env : FetchEnv) (o : ObserverId)
    (observers : List ObserverId) (hc : observers.count o = 1) (children : List Mention)
    (k : Nat) :
    NotifiedBeforeSend o (sendChildren env observers children k).2.2 ∧
    ((sendChildren env observers children k).1 = false →
      updatesOf o (sendChildren env observers children k).2.2
        = sent (sendChildren env observers children k).2.2) := by
  induction children generalizing k with
  | nil =>
    exact ⟨notified_of_no_send o _ rfl, fun _ => rfl⟩
  | cons c cs ih =>
    unfold sendChildren
    split
    · exact ⟨notified_of_no_send o _ (sent_updateObservers observers c),
        fun h => by simp at h⟩
    · obtain ⟨ih1, ih2⟩ := ih (k + 1)
      obtain ⟨hb1, hb2⟩ := notified_block o observers c hc
      refine ⟨notified_append o _ _ hb2 hb1 ih1, ?_⟩
      intro h
      simp only at h
      rw [updatesOf_append, sent_append, hb2, ih2 h]

theorem notified_fetchLoop (env : FetchEnv) (o : ObserverId)
    (observers : List ObserverId) (hc : observers.count o = 1) (fuel : Nat)
    (children : List Mention) (c k : Nat) (err : Option String) (tr : List Event)
    (h : fetchLoop env observers fuel children c k = some (err, tr)) :
    NotifiedBeforeSend o tr := by
  induction fuel generalizing children c k err tr with
  | zero => simp [fetchLoop] at h
  | succ fuel ih =>
    unfold fetchLoop at h
    split at h
    · split at h
      · cases h; exact notified_of_no_send o _ rfl
      · obtain ⟨hs1, hs2⟩ := notified_sendChildren env o observers hc children (k + 1)
        split at h
        · rename_i heq
          rw [heq] at hs1
          cases h; exact hs1
        · rename_i heq
          rw [heq] at hs1 hs2
          have hbal := hs2 rfl
          simp only at hs1 hbal
          split at h
          · cases h
            exact notified_append_no_send o _ _ hs1 rfl
          · split at h
            · cases h
            · rename_i heq2
              have h1 := ih _ _ _ _ _ heq2
              cases h
              refine notified_append o _ _ ?_ (notified_append_no_send o _ _ hs1 rfl) h1
              rw [updatesOf_append, sent_append, hbal]
              rfl
    · cases h; exact notified_of_no_send o _ rfl

theorem notified_DoFetch (env : FetchEnv) (o : ObserverId)
    (observers : List ObserverId) (hc : observers.count o = 1) (fuel : Nat)
    (err : Option String) (tr : List Event)
    (h : DoFetch env observers fuel = some (err, tr)) : NotifiedBeforeSend o tr := by
  unfold DoFetch at h
  split at h
  · cases h; exact notified_of_no_send o _ rfl
  · split at h
    · cases h
    · rename_i heq
      have h1 := notified_fetchLoop env o observers hc _ _ _ _ _ _ heq
      cases h
      exact notified_append_no_send o _ _
        (notified_append o _ _ rfl (notified_of_no_send o _ rfl) h1) rfl

theorem balanced_fetchLoop (env : FetchEnv) (o : ObserverId)
    (observers : List ObserverId) (hc : observers.count o = 1)
    (hnc : ∀ k, env.ctxDone k = false) (fuel : Nat)
    (children : List Mention) (c k : Nat) (err : Option String) (tr : List Event)
    (h : fetchLoop env observers fuel children c k = some (err, tr)) :
    updatesOf o tr = sent tr := by
  induction fuel generalizing children c k err tr with
  | zero => simp [fetchLoop] at h
  | succ fuel ih =>
    unfold fetchLoop at h
    split at h
    · rw [hnc k] at h
      simp only [Bool.false_eq_true, if_false] at h
      have hs2 := (notified_sendChildren env o observers hc children (k + 1)).2
      have hs0 := (sendChildren_uncancelled env observers hnc children (k + 1)).1
      split at h
      · rename_i heq
        rw [heq] at hs0
        simp at hs0
      · rename_i heq
        rw [heq] at hs2
        have hbal := hs2 rfl
        simp only at hbal
        split at h
        · cases h
          rw [updatesOf_append, sent_append, hbal]
          rfl
        · split at h
          · cases h
          · rename_i heq2
            have h1 := ih _ _ _ _ _ heq2
            cases h
            rw [updatesOf_append, sent_append, updatesOf_append, sent_append, hbal, h1]
            rfl
    · cases h; rfl

theorem balanced_DoFetch (env : FetchEnv) (o : ObserverId)
    (observers : List ObserverId) (hc : observers.count o = 1)
    (hnc : ∀ k, env.ctxDone k = false) (fuel : Nat)
    (err : Option String) (tr : List Event)
    (h : DoFetch env observers fuel = some (err, tr)) : updatesOf o tr = sent tr := by
  unfold DoFetch at h
  split at h
  · cases h; rfl
  · split at h
    · cases h
    · rename_i heq
      have h1 := balanced_fetchLoop env o observers hc hnc _ _ _ _ _ _ heq
      cases h
      rw [updatesOf_append, sent_append, updatesOf_append, sent_append, h1]
      rfl

theorem DoFetch_uncancelled_returns (env : FetchEnv) (observers : List ObserverId)
    (n fuel : Nat) (hnc : ∀ k, env.ctxDone k = false)
    (hpages : ∀ i, i < n → ∃ r, env.client i = .ok r ∧ r.Children ≠ [])
    (hstop : Stops (env.client n)) (hfuel : n < fuel) :
    ∃ tr, DoFetch env observers fuel = some (stopError (env.client n), tr) ∧
      sent tr = pagesFrom env.client 0 n := by
  cases n with
  | zero =>
    obtain ⟨f, rfl⟩ : ∃ f, fuel = f + 1 := ⟨fuel - 1, by omega⟩
    rcases hcl : env.client 0 with e | r
    · refine ⟨[Event.getMentions, Event.close], ?_, ?_⟩
      · simp only [DoFetch, hcl, stopError]
      · simp [sent, pagesFrom]
    · rw [hcl] at hstop
      simp only [Stops] at hstop
      refine ⟨[Event.getMentions, Event.close], ?_, ?_⟩
      · simp [DoFetch, hcl, stopError, fetchLoop, hstop]
      · simp [sent, pagesFrom]
  | succ m =>
    obtain ⟨r0, hr0, hne0⟩ := hpages 0 (by omega)
    have hpages2 : ∀ i, i < m → ∃ r, env.client (0 + 1 + i) = .ok r ∧ r.Children ≠ [] := by
      intro i hi
      have : 0 + 1 + i = i + 1 := by omega
      rw [this]; exact hpages (i + 1) (by omega)
    have hstop2 : Stops (env.client (0 + 1 + m)) := by
      have : 0 + 1 + m = m + 1 := by omega
      rw [this]; exact hstop
    obtain ⟨tr, htr, hsent, _⟩ :=
      fetchLoop_uncancelled env observers hnc m 0 0 fuel r0.Children (by omega) hne0
        hpages2 hstop2
    have heq : 0 + 1 + m = m + 1 := by omega
    rw [heq] at htr
    simp only [Nat.zero_add] at htr hsent
    refine ⟨[Event.getMentions] ++ tr ++ [Event.close], ?_, ?_⟩
    · simp only [DoFetch, hr0, htr]
    · simp [sent_append, sent, hsent, pagesFrom, hr0, childrenOf]

theorem wrapInt_of_small (x : Int) (h0 : 0 ≤ x) (h1 : x < 2 ^ 63) : wrapInt x = x := by
  unfold wrapInt
  have h2 : (2 : Int) ^ 63 = 9223372036854775808 := by norm_num
  have h3 : (2 : Int) ^ 64 = 18446744073709551616 := by norm_num
  rw [h2] at h1 ⊢
  rw [h3]
  rw [Int.emod_eq_of_lt (by omega) (by omega)]
  omega

theorem mentionsSeen_foldl (ms : List Mention) (st : MetricsObserver)
    (h0 : 0 ≤ st.MentionsSeen) (h1 : st.MentionsSeen + ms.length < 2 ^ 63) :
    (ms.foldl MetricsObserver.Update st).MentionsSeen = st.MentionsSeen + ms.length := by
  induction ms generalizing st with
  | nil => simp
  | cons x xs ih =>
    have hlen : ((x :: xs).length : Int) = (xs.length : Int) + 1 := by simp
    rw [hlen] at h1
    have hx : (st.Update x).MentionsSeen = st.MentionsSeen + 1 := by
      simp only [MetricsObserver.Update]
      exact wrapInt_of_small _ (by omega) (by omega)
    rw [List.foldl_cons, ih (st.Update x) (by rw [hx]; omega) (by rw [hx]; omega), hx, hlen]
    omega

theorem mentionsSeen_observeAll (ms : List Mention) (h : ms.length < 2 ^ 63) :
    (observeAll ms).MentionsSeen = ms.length := by
  have hz : (0 : Int) + (ms.length : Int) < 2 ^ 63 := by
    rw [Int.zero_add]
    exact_mod_cast h
  have := mentionsSeen_foldl ms {} (le_refl _) hz
  unfold observeAll
  rw [this]
  simp

theorem sendChildren_uncancelled_of_false (env : FetchEnv) (o : ObserverId)
    (observers : List ObserverId) (hc : observers.count o = 1) (children : List Mention)
    (k : Nat) (h : (sendChildren env observers children k).1 = false) :
    updatesOf o (sendChildren env observers children k).2.2 = children := by
  induction children generalizing k with
  | nil => rfl
  | cons c cs ih =>
    unfold sendChildren at h ⊢
    split
    · rename_i hd
      rw [if_pos hd] at h
      simp at h
    · rename_i hd
      rw [if_neg hd] at h
      simp only at h
      simp only [updatesOf_append, updatesOf_updateObservers, hc, updatesOf, ih (k + 1) h]
      simp [List.replicate]

theorem updates_prefix_sendChildren (env : FetchEnv) (o : ObserverId)
    (observers : List ObserverId) (hc : observers.count o = 1) (children : List Mention)
    (k : Nat) :
    updatesOf o (sendChildren env observers children k).2.2 <+: children := by
  induction children generalizing k with
  | nil => exact List.prefix_refl _
  | cons c cs ih =>
    unfold sendChildren
    split
    · simp only [updatesOf_updateObservers, hc]
      exact ⟨cs, rfl⟩
    · simp only [updatesOf_append, updatesOf_updateObservers, hc, updatesOf]
      obtain ⟨t, ht⟩ := ih (k + 1)
      refine ⟨t, ?_⟩
      simp [List.replicate, ht]

theorem updates_prefix_fetchLoop (env : FetchEnv) (o : ObserverId)
    (observers : List ObserverId) (hc : observers.count o = 1) (fuel : Nat)
    (children : List Mention) (c k : Nat) (err : Option String) (tr : List Event)
    (h : fetchLoop env observers fuel children c k = some (err, tr)) :
    ∃ d, updatesOf o tr <+: children ++ pagesFrom env.client c d := by
  induction fuel generalizing children c k err tr with
  | zero => simp [fetchLoop] at h
  | succ fuel ih =>
    unfold fetchLoop at h
    split at h
    · split at h
      · cases h; exact ⟨0, List.nil_prefix⟩
      · have hp := updates_prefix_sendChildren env o observers hc children (k + 1)
        have hs2 := (notified_sendChildren env o observers hc children (k + 1)).2
        split at h
        · rename_i heq
          rw [heq] at hp
          cases h
          refine ⟨0, ?_⟩
          simp only [pagesFrom, List.append_nil]
          exact hp
        · rename_i heq
          rw [heq] at hp hs2
          simp only at hp
          split at h
          · cases h
            refine ⟨0, ?_⟩
            simp only [pagesFrom, List.append_nil, updatesOf_append, updatesOf]
            exact hp
          · rename_i result hcl
            split at h
            · cases h
            · rename_i heq2
              obtain ⟨d, hd⟩ := ih _ _ _ _ _ heq2
              cases h
              have hfull : updatesOf o
                  (sendChildren env observers children (k + 1)).2.2 = children := by
                have h1 := (sendChildren_uncancelled_of_false env o observers hc children
                  (k + 1) (by rw [heq]))
                exact h1
              rw [heq] at hfull
              simp only at hfull
              refine ⟨d + 1, ?_⟩
              simp only [updatesOf_append, updatesOf, List.append_nil, hfull, pagesFrom, hcl,
                childrenOf]
              exact (List.prefix_append_right_inj children).mpr hd
    · cases h; exact ⟨0, List.nil_prefix⟩

theorem updates_prefix_DoFetch (env : FetchEnv) (o : ObserverId)
    (observers : List ObserverId) (hc : observers.count o = 1) (fuel : Nat)
    (err : Option String) (tr : List Event)
    (h : DoFetch env observers fuel = some (err, tr)) :
    ∃ d, updatesOf o tr <+: pagesFrom env.client 0 d := by
  unfold DoFetch at h
  split at h
  · cases h; exact ⟨0, List.nil_prefix⟩
  · rename_i result hcl
    split at h
    · cases h
    · rename_i heq
      rename_i err1 evs1
      obtain ⟨d, hd⟩ := updates_prefix_fetchLoop env o observers hc _ _ _ _ _ _ heq
      have he : updatesOf o ([Event.getMentions] ++ evs1 ++ [Event.close])
          = updatesOf o evs1 := by
        rw [updatesOf_append, updatesOf_append]
        simp [updatesOf]
      cases h
      refine ⟨d + 1, ?_⟩
      rw [he]
      simp only [pagesFrom, hcl, childrenOf]
      exact hd

/-- C12: let `o` be a registered observer. In every run of `DoFetch` that returns,
cancelled or not, at each send of a record `o` has been updated with exactly the records
sent before, in the order they were sent, and then with the record itself: the `Update`
of a record precedes its send; and all the updates of `o` are a beginning of the pages of
the client put one after the other, that is, they follow the order of arrival (page by
page, and by position within a page). In an uncancelled run that stops at the call number `n` of the client, the updates of `o` are
the records sent, which are the pages 0 to `n - 1` in order, one update per record; so a
zero-valued `MetricsObserver` registered as `o` ends with `MentionsSeen` equal to the
number of records sent (a number below `2^63`, as every Go `int` count is). -/
theorem DoFetch_notifies_before_send (env : FetchEnv) (observers : List ObserverId)
    (o : ObserverId) (fuel : Nat) (ho : o ∈ observers) (hnd : observers.Nodup) :
    (∀ err tr, DoFetch env observers fuel = some (err, tr) →
      NotifiedBeforeSend o tr ∧ ∃ d, updatesOf o tr <+: pagesFrom env.client 0 d) ∧
    (∀ n, (∀ k, env.ctxDone k = false) →
      (∀ i, i < n → ∃ r, env.client i = .ok r ∧ r.Children ≠ []) →
      Stops (env.client n) → n < fuel →
      ∃ err tr, DoFetch env observers fuel = some (err, tr) ∧
        updatesOf o tr = sent tr ∧ sent tr = pagesFrom env.client 0 n ∧
        ((sent tr).length < 2 ^ 63 →
          (observeAll (updatesOf o tr)).MentionsSeen = (sent tr).length)) := by
  have hc : observers.count o = 1 := List.count_eq_one_of_mem hnd ho
  constructor
  · intro err tr h
    exact ⟨notified_DoFetch env o observers hc fuel err tr h,
      updates_prefix_DoFetch env o observers hc fuel err tr h⟩
  · intro n hnc hpages hstop hfuel
    obtain ⟨tr, htr, hsent⟩ :=
      DoFetch_uncancelled_returns env observers n fuel hnc hpages hstop hfuel
    have hbal := balanced_DoFetch env o observers hc hnc fuel _ tr htr
    refine ⟨_, tr, htr, hbal, hsent, ?_⟩
    intro hlen
    rw [hbal]
    exact mentionsSeen_observeAll _ hlen

/-- Witness of C12: the run of `TestFetchWorker` with one observer, one page of three
records and then an empty page. -/
theorem DoFetch_notifies_before_send_witness :
    (0 ∈ [0]) ∧ [0].Nodup ∧
    (∀ k, (uncancelledEnv [.ok { Children := mockMentions }]).ctxDone k = false) ∧
    (∃ err tr, DoFetch (uncancelledEnv [.ok { Children := mockMentions }]) [0] 2
        = some (err, tr) ∧
      updatesOf 0 tr = sent tr ∧
      sent tr = pagesFrom (uncancelledEnv [.ok { Children := mockMentions }]).client 0 1 ∧
      ((sent tr).length < 2 ^ 63 →
        (observeAll (updatesOf 0 tr)).MentionsSeen = (sent tr).length)) ∧
    (∃ err tr, DoFetch (testFetchEnv [.ok { Children := mockMentions }] 2) [0] 1
        = some (err, tr) ∧ NotifiedBeforeSend 0 tr) :=
  ⟨by decide, by decide, fun _ => rfl,
    (DoFetch_notifies_before_send (uncancelledEnv [.ok { Children := mockMentions }])
      [0] 0 2 (by decide) (by decide)).2 1 (fun _ => rfl)
      (by
        intro i hi
        have hi0 : i = 0 := by omega
        subst hi0
        exact ⟨_, rfl, by decide⟩)
      rfl (by decide),
    ⟨_, _, rfl,
      ((DoFetch_notifies_before_send (testFetchEnv [.ok { Children := mockMentions }] 2)
        [0] 0 1 (by decide) (by decide)).1 _ _ rfl).1⟩⟩

/-! ## C13: `GenerateSlug` -/

theorem replaceScan_slash_append (new a b : List Char) :
    replaceScan ['/'] new 0 (a ++ b)
      = replaceScan ['/'] new 0 a ++ replaceScan ['/'] new 0 b := by
  induction a with
  | nil => simp [replaceScan]
  | cons c cs ih =>
    by_cases hc : c = '/'
    · subst hc
      simp [replaceScan, List.isPrefixOf, ih]
    · have hc2 : ¬ ('/' = c) := fun h => hc h.symm
      simp [replaceScan, List.isPrefixOf, ih, hc2]

theorem replaceScan_slash_of_not_mem (new a : List Char) (h : '/' ∉ a) :
    replaceScan ['/'] new 0 a = a := by
  induction a with
  | nil => simp [replaceScan]
  | cons c cs ih =>
    have hc : ¬ ('/' = c) := fun hc => h (List.mem_cons.mpr (Or.inl hc))
    have hcs : '/' ∉ cs := fun hcs => h (List.mem_cons_of_mem _ hcs)
    simp [replaceScan, List.isPrefixOf, ih hcs, hc]

theorem replaceScan_slash_single (new : List Char) :
    replaceScan ['/'] new 0 ['/'] = new := by
  simp [replaceScan, List.isPrefixOf]

theorem replaceScan_joinWith (segs : List String) (h : ∀ s ∈ segs, '/' ∉ s.data) :
    replaceScan ['/'] ['-', '-'] 0 (joinWith "/" segs).data = (joinWith "--" segs).data := by
  induction segs with
  | nil => simp [joinWith, replaceScan]
  | cons s rest ih =>
    cases rest with
    | nil =>
      simp only [joinWith]
      exact replaceScan_slash_of_not_mem _ _ (h s (List.mem_cons_self _ _))
    | cons t rest2 =>
      have ih2 := ih (fun x hx => h x (List.mem_cons_of_mem _ hx))
      simp only [joinWith, String.data_append]
      rw [replaceScan_slash_append, replaceScan_slash_append, ih2,
        replaceScan_slash_of_not_mem _ _ (h s (List.mem_cons_self _ _))]
      rw [replaceScan_slash_single]

theorem joinWith_getLast (sep : String) (segs : List String) (hne : segs ≠ [])
    (h : ∀ s ∈ segs, s ≠ "") :
    ∃ last, segs.getLast? = some last ∧
      (joinWith sep segs).data.getLast? = last.data.getLast? ∧
      (joinWith sep segs).data ≠ [] := by
  induction segs with
  | nil => exact absurd rfl hne
  | cons s rest ih =>
    cases rest with
    | nil =>
      refine ⟨s, rfl, rfl, ?_⟩
      intro hd
      apply h s (List.mem_cons_self _ _)
      cases s
      simp only [joinWith] at hd
      simp [hd]
    | cons t rest2 =>
      obtain ⟨last, h1, h2, h3⟩ := ih (by simp) (fun x hx => h x (List.mem_cons_of_mem _ hx))
      refine ⟨last, ?_, ?_, ?_⟩
      · rw [List.getLast?_cons_cons]; exact h1
      · simp only [joinWith, String.data_append]
        rw [List.getLast?_append_of_ne_nil _ h3]
        exact h2
      · simp only [joinWith, String.data_append]
        intro hd
        exact h3 (List.append_eq_nil.mp hd).2

theorem trimPrefix_slash (J : String) : TrimPrefix ("/" ++ J) "/" = J := by
  unfold TrimPrefix
  have hs : ("/" : String).data = ['/'] := rfl
  simp [String.data_append, hs, List.isPrefixOf]

theorem trimSuffix_of_last (slug : String) (h : slug.data.getLast? ≠ some '-') :
    TrimSuffix slug "--" = slug := by
  unfold TrimSuffix
  have hd : ("--" : String).data = ['-', '-'] := rfl
  rw [hd]
  have hns : ¬ (['-', '-'].isSuffixOf slug.data = true) := by
    rw [List.isSuffixOf_iff_suffix]
    rintro ⟨pre, hpre⟩
    apply h
    rw [← hpre]
    simp
  rw [if_neg hns]

/-- C13: if the target of a mention parses as a URL whose path is `/s1/s2/.../sn`, with at
least one segment, every segment non-empty and without `/`, and the last segment not
ending in `-`, then `GenerateSlug` returns `s1--s2--...--sn` and a nil error, whatever the
scheme, host, query and fragment of the URL. If the target does not parse,
`GenerateSlug` returns the empty slug and a non-nil error. -/
theorem GenerateSlug_joins_segments (urlParse : String → Except String URL)
    (m : Mention) :
    (∀ u segs, urlParse m.WMTarget = .ok u → u.Path = "/" ++ joinWith "/" segs →
      segs ≠ [] → (∀ s ∈ segs, s ≠ "" ∧ '/' ∉ s.data) →
      (∀ s, segs.getLast? = some s → s.data.getLast? ≠ some '-') →
      GenerateSlug urlParse m = (joinWith "--" segs, none)) ∧
    (∀ e, urlParse m.WMTarget = .error e →
      (GenerateSlug urlParse m).1 = "" ∧ (GenerateSlug urlParse m).2 ≠ none) := by
  constructor
  · intro u segs hparse hpath hne hseg hlast
    obtain ⟨last, hl1, hl2, _⟩ := joinWith_getLast "--" segs hne (fun s hs => (hseg s hs).1)
    have hrep : ReplaceAll (joinWith "/" segs) "/" "--" = joinWith "--" segs := by
      unfold ReplaceAll
      have hs : ("/" : String).data = ['/'] := rfl
      have hd : ("--" : String).data = ['-', '-'] := rfl
      rw [hs, hd, if_neg (by simp), replaceScan_joinWith segs (fun s hs => (hseg s hs).2)]
    unfold GenerateSlug
    rw [hparse]
    simp only [hpath, trimPrefix_slash, hrep]
    rw [trimSuffix_of_last _ (by rw [hl2]; exact hlast last hl1)]
  · intro e hparse
    unfold GenerateSlug
    rw [hparse]
    simp

/-- Witness of C13: the target of `TestMention_GenerateSlug`, whose path has the segments
`path` and `to-the_post.html`. -/
theorem GenerateSlug_joins_segments_witness :
    testUrlParse postMention.WMTarget
      = .ok { Scheme := "https", Host := "example.com", Path := "/path/to-the_post.html" } ∧
    ("/path/to-the_post.html" : String) = "/" ++ joinWith "/" ["path", "to-the_post.html"] ∧
    GenerateSlug testUrlParse postMention = ("path--to-the_post.html", none) ∧
    testUrlParse badTargetMention.WMTarget = .error "invalid character in host name" ∧
    (GenerateSlug testUrlParse badTargetMention).1 = "" :=
  ⟨rfl, by decide,
    (GenerateSlug_joins_segments testUrlParse postMention).1
      { Scheme := "https", Host := "example.com", Path := "/path/to-the_post.html" }
      ["path", "to-the_post.html"] rfl (by decide) (by decide) (by decide) (by decide),
    rfl,
    ((GenerateSlug_joins_segments testUrlParse badTargetMention).2
      "invalid character in host name" rfl).1⟩

/-! ## C14 - C17: `MetricsObserver.Update` -/

theorem observeAll_concat (l : List Mention) (a : Mention) :
    observeAll (l ++ [a]) = (observeAll l).Update a := by
  unfold observeAll
  rw [List.foldl_append]
  rfl

theorem append_new_eq {α : Type} [DecidableEq α] (r : List α) (a : α) :
    (if a ∈ r.reverse.dedup.reverse then r.reverse.dedup.reverse
      else r.reverse.dedup.reverse ++ [a]) = ((r ++ [a]).reverse.dedup).reverse := by
  rw [List.reverse_append, List.reverse_singleton, List.singleton_append]
  by_cases h : a ∈ r
  · have h1 : a ∈ r.reverse.dedup.reverse := by simpa using h
    have h2 : a ∈ r.reverse := by simpa using h
    rw [if_pos h1, List.dedup_cons_of_mem h2]
  · have h1 : a ∉ r.reverse.dedup.reverse := by simpa using h
    have h2 : a ∉ r.reverse := by simpa using h
    rw [if_neg h1, List.dedup_cons_of_not_mem h2, List.reverse_cons]

theorem uniqueMentions_observeAll (ms : List Mention) :
    (observeAll ms).UniqueMentions = ((ms.map (fun x => x.WMID)).reverse.dedup).reverse := by
  induction ms using List.reverseRecOn with
  | nil => rfl
  | append_singleton l a ih =>
    rw [observeAll_concat, List.map_append, List.map_singleton, ← append_new_eq, ← ih]
    simp [MetricsObserver.Update]

theorem allSenders_observeAll (ms : List Mention) :
    (observeAll ms).AllSenders = ((ms.map (fun x => x.WMSource)).reverse.dedup).reverse := by
  induction ms using List.reverseRecOn with
  | nil => rfl
  | append_singleton l a ih =>
    rw [observeAll_concat, List.map_append, List.map_singleton, ← append_new_eq, ← ih]
    simp [MetricsObserver.Update]

theorem length_first_seen {α : Type} [DecidableEq α] (r : List α) :
    (r.reverse.dedup).reverse.length = r.toFinset.card := by
  rw [List.length_reverse, ← List.card_toFinset, List.toFinset_reverse]

/-- C14: from a zero-valued `MetricsObserver`, after `Update` on a sequence of `N` mentions
(`N` below `2^63`, as every Go `int` count is) with `K` distinct `WMID` values and `S`
distinct `WMSource` values: `MentionsSeen = N`, `len(UniqueMentions) = K`,
`len(AllSenders) = S`, neither list has a repeated element, and both list their elements
in the order of first observation (`l.reverse.dedup.reverse` keeps, of every element of
`l`, the first occurrence). -/
theorem observeAll_counts (ms : List Mention) (hN : ms.length < 2 ^ 63) :
    (observeAll ms).MentionsSeen = ms.length ∧
    (observeAll ms).UniqueMentions.length = (ms.map (fun x => x.WMID)).toFinset.card ∧
    (observeAll ms).AllSenders.length = (ms.map (fun x => x.WMSource)).toFinset.card ∧
    (observeAll ms).UniqueMentions.Nodup ∧
    (observeAll ms).AllSenders.Nodup ∧
    (observeAll ms).UniqueMentions = ((ms.map (fun x => x.WMID)).reverse.dedup).reverse ∧
    (observeAll ms).AllSenders = ((ms.map (fun x => x.WMSource)).reverse.dedup).reverse := by
  refine ⟨mentionsSeen_observeAll ms hN, ?_, ?_, ?_, ?_, uniqueMentions_observeAll ms,
    allSenders_observeAll ms⟩
  · rw [uniqueMentions_observeAll, length_first_seen]
  · rw [allSenders_observeAll, length_first_seen]
  · rw [uniqueMentions_observeAll, List.nodup_reverse]
    exact List.nodup_dedup _
  · rw [allSenders_observeAll, List.nodup_reverse]
    exact List.nodup_dedup _

/-- Witness of C14: the third case of `TestMetricsObserver_Update`, the second mention
observed twice. -/
theorem observeAll_counts_witness :
    [mention1, mention2, mention2].length < 2 ^ 63 ∧
    (observeAll [mention1, mention2, mention2]).MentionsSeen
      = ([mention1, mention2, mention2].length : Int) ∧
    (observeAll [mention1, mention2, mention2]).UniqueMentions.length
      = ([mention1, mention2, mention2].map (fun x => x.WMID)).toFinset.card :=
  ⟨by decide,
    (observeAll_counts [mention1, mention2, mention2] (by decide)).1,
    (observeAll_counts [mention1, mention2, mention2] (by decide)).2.1⟩

/-- C15, as stated, fails: `MaxID == 0` is taken for "no id seen yet", so after a mention
with id 0 a mention with a negative id lowers `MaxID` below the largest id observed. -/
theorem observeAll_maxID_negative :
    (observeAll [{ WMID := 0 }, { WMID := -3 }]).MaxID = -3 ∧
    ¬ (∀ x ∈ ([{ WMID := 0 }, { WMID := -3 }] : List Mention),
        x.WMID ≤ (observeAll [{ WMID := 0 }, { WMID := -3 }]).MaxID) := by
  decide

/-- C15, amended: from a zero-valued `MetricsObserver`, after `Update` on a non-empty
sequence of mentions whose `WMID`s are all non-negative, or all different from 0, `MaxID`
is the largest `WMID` observed: it is the id of an observed mention and no observed id
exceeds it. -/
theorem observeAll_maxID (ms : List Mention) (hne : ms ≠ [])
    (h : (∀ x ∈ ms, 0 ≤ x.WMID) ∨ (∀ x ∈ ms, x.WMID ≠ 0)) :
    (∃ x ∈ ms, x.WMID = (observeAll ms).MaxID) ∧
    (∀ x ∈ ms, x.WMID ≤ (observeAll ms).MaxID) := by
  induction ms using List.reverseRecOn with
  | nil => exact absurd rfl hne
  | append_singleton l a ih =>
    rw [observeAll_concat]
    have hmax : ((observeAll l).Update a).MaxID =
        if (observeAll l).MaxID = 0 ∨ a.WMID > (observeAll l).MaxID then a.WMID
        else (observeAll l).MaxID := rfl
    rw [hmax]
    by_cases hl : l = []
    · subst hl
      have hz : (observeAll []).MaxID = 0 := rfl
      simp [hz]
    · have hl2 : (∀ x ∈ l, 0 ≤ x.WMID) ∨ (∀ x ∈ l, x.WMID ≠ 0) := by
        rcases h with h | h
        · exact Or.inl (fun x hx => h x (List.mem_append_left _ hx))
        · exact Or.inr (fun x hx => h x (List.mem_append_left _ hx))
      obtain ⟨⟨y, hy, hyM⟩, hle⟩ := ih hl hl2
      by_cases hM : (observeAll l).MaxID = 0
      · rw [if_pos (Or.inl hM)]
        rcases h with h | h
        · refine ⟨⟨a, by simp, rfl⟩, ?_⟩
          intro x hx
          rcases List.mem_append.mp hx with hx | hx
          · have h1 := hle x hx
            have h2 := h a (by simp)
            omega
          · rw [List.mem_singleton] at hx
            subst hx; exact le_refl _
        · exact absurd (hyM.trans hM) (h y (List.mem_append_left _ hy))
      · by_cases hgt : a.WMID > (observeAll l).MaxID
        · rw [if_pos (Or.inr hgt)]
          refine ⟨⟨a, by simp, rfl⟩, ?_⟩
          intro x hx
          rcases List.mem_append.mp hx with hx | hx
          · have h1 := hle x hx
            omega
          · rw [List.mem_singleton] at hx
            subst hx; exact le_refl _
        · rw [if_neg (by rintro (h1 | h1); exact hM h1; exact hgt h1)]
          refine ⟨⟨y, List.mem_append_left _ hy, hyM⟩, ?_⟩
          intro x hx
          rcases List.mem_append.mp hx with hx | hx
          · exact hle x hx
          · rw [List.mem_singleton] at hx
            subst hx; omega

/-- Witness of the amended C15: the mentions of `TestMetricsObserver_Update`. -/
theorem observeAll_maxID_witness :
    [mention1, mention2, mention2] ≠ [] ∧
    (∀ x ∈ [mention1, mention2, mention2], 0 ≤ x.WMID) ∧
    (∀ x ∈ [mention1, mention2, mention2],
      x.WMID ≤ (observeAll [mention1, mention2, mention2]).MaxID) :=
  ⟨by decide, by decide,
    (observeAll_maxID [mention1, mention2, mention2] (by decide) (Or.inl (by decide))).2⟩

theorem time_eq_zero_iff (t : Time) : t = {} ↔ t.nsec = 0 := by
  constructor
  · intro h; rw [h]
  · intro h; cases t; simp only at h; subst h; rfl

theorem earliest_update (st : MetricsObserver) (m : Mention) :
    (st.Update m).EarliestReceived =
      if st.EarliestReceived.nsec = 0 ∨ st.EarliestReceived.nsec > m.WMReceived.nsec then
        m.WMReceived
      else st.EarliestReceived := by
  simp only [MetricsObserver.Update, Time.Equal, Time.After, Bool.or_eq_true, decide_eq_true_eq]

theorem latest_update (st : MetricsObserver) (m : Mention) :
    (st.Update m).LatestReceived =
      if st.LatestReceived.nsec = 0 ∨ st.LatestReceived.nsec < m.WMReceived.nsec then
        m.WMReceived
      else st.LatestReceived := by
  simp only [MetricsObserver.Update, Time.Equal, Time.Before, Bool.or_eq_true, decide_eq_true_eq]

/-- C16, as stated, fails: `Update` has no test of the timestamp of the record. After
`mention1` was observed, a mention with the zero `WMReceived` sets `EarliestReceived`
back to the zero time. -/
theorem Update_zero_time_changes_earliest :
    ({ WMID := 11 } : Mention).WMReceived = {} ∧
    (observeAll [mention1]).EarliestReceived = { nsec := 1000 } ∧
    ((observeAll [mention1]).Update { WMID := 11 }).EarliestReceived = {} ∧
    ((observeAll [mention1]).Update { WMID := 11 }).EarliestReceived
      ≠ (observeAll [mention1]).EarliestReceived := by
  decide

theorem latest_nonneg_observeAll (ms : List Mention)
    (h : ∀ x ∈ ms, 0 ≤ x.WMReceived.nsec) : 0 ≤ (observeAll ms).LatestReceived.nsec := by
  induction ms using List.reverseRecOn with
  | nil => exact le_refl _
  | append_singleton l a ih =>
    rw [observeAll_concat, latest_update]
    split
    · exact h a (by simp)
    · exact ih (fun x hx => h x (List.mem_append_left _ hx))

/-- C16, amended: for every state and every mention whose `WMReceived` is the zero time,
`LatestReceived` is the same after `Update` as before it whenever it is not earlier than the
zero time, which is so in every state reached from the zero-valued observer through
mentions whose timestamps are not earlier than the zero time; and `EarliestReceived` is
the same after `Update` as before it whenever it is not later than the zero time. Nothing
is said here of an `EarliestReceived` that is later than the zero time. -/
theorem Update_zero_time (st : MetricsObserver) (m : Mention) (hz : m.WMReceived = {}) :
    (0 ≤ st.LatestReceived.nsec → (st.Update m).LatestReceived = st.LatestReceived) ∧
    (∀ ms : List Mention, (∀ x ∈ ms, 0 ≤ x.WMReceived.nsec) →
      ((observeAll ms).Update m).LatestReceived = (observeAll ms).LatestReceived) ∧
    (st.EarliestReceived.nsec ≤ 0 →
      (st.Update m).EarliestReceived = st.EarliestReceived) := by
  have hm : m.WMReceived.nsec = 0 := by rw [hz]
  have hlatest : ∀ s : MetricsObserver, 0 ≤ s.LatestReceived.nsec →
      (s.Update m).LatestReceived = s.LatestReceived := by
    intro s h
    rw [latest_update, hm, hz]
    by_cases h0 : s.LatestReceived.nsec = 0
    · rw [if_pos (Or.inl h0)]
      exact ((time_eq_zero_iff _).mpr h0).symm
    · rw [if_neg (by rintro (h1 | h1); exact h0 h1; omega)]
  refine ⟨hlatest st, ?_, ?_⟩
  · intro ms hms
    exact hlatest _ (latest_nonneg_observeAll ms hms)
  · intro h
    rw [earliest_update, hm, hz]
    by_cases h0 : st.EarliestReceived.nsec = 0
    · rw [if_pos (Or.inl h0)]
      exact ((time_eq_zero_iff _).mpr h0).symm
    · rw [if_neg (by rintro (h1 | h1); exact h0 h1; omega)]

/-- Witness of the amended C16. After `mention1` was observed, a mention with the zero
`WMReceived` leaves `LatestReceived` at the timestamp of `mention1` (in this state
`EarliestReceived` does change); and after a mention received before the zero time, it
leaves `EarliestReceived` at that timestamp. -/
theorem Update_zero_time_witness :
    ({ WMID := 11 } : Mention).WMReceived = {} ∧
    (observeAll [mention1]).LatestReceived = { nsec := 1000 } ∧
    ((observeAll [mention1]).Update { WMID := 11 }).LatestReceived
      = (observeAll [mention1]).LatestReceived ∧
    (observeAll [ancientMention]).EarliestReceived = { nsec := -5 } ∧
    ((observeAll [ancientMention]).Update { WMID := 11 }).EarliestReceived
      = (observeAll [ancientMention]).EarliestReceived :=
  ⟨rfl, by decide,
    (Update_zero_time (observeAll [mention1]) { WMID := 11 } rfl).1 (by decide),
    by decide,
    (Update_zero_time (observeAll [ancientMention]) { WMID := 11 } rfl).2.2 (by decide)⟩

/-- C17: from a zero-valued `MetricsObserver`, after `Update` on a non-empty sequence of
mentions whose `WMReceived` are all different from the zero time, `EarliestReceived` is the
minimum and `LatestReceived` the maximum of the observed `WMReceived`: each is the
timestamp of an observed mention, no observed timestamp is earlier than the first and
none is later than the second. -/
theorem observeAll_earliest_latest (ms : List Mention) (hne : ms ≠ [])
    (hnz : ∀ x ∈ ms, x.WMReceived ≠ {}) :
    (∃ x ∈ ms, x.WMReceived = (observeAll ms).EarliestReceived) ∧
    (∀ x ∈ ms, (observeAll ms).EarliestReceived.nsec ≤ x.WMReceived.nsec) ∧
    (∃ x ∈ ms, x.WMReceived = (observeAll ms).LatestReceived) ∧
    (∀ x ∈ ms, x.WMReceived.nsec ≤ (observeAll ms).LatestReceived.nsec) := by
  induction ms using List.reverseRecOn with
  | nil => exact absurd rfl hne
  | append_singleton l a ih =>
    rw [observeAll_concat, earliest_update, latest_update]
    by_cases hl : l = []
    · subst hl
      have hz1 : (observeAll []).EarliestReceived.nsec = 0 := rfl
      have hz2 : (observeAll []).LatestReceived.nsec = 0 := rfl
      simp [hz1, hz2]
    · obtain ⟨⟨y, hy, hyE⟩, hle, ⟨z, hz, hzL⟩, hge⟩ :=
        ih hl (fun x hx => hnz x (List.mem_append_left _ hx))
      have hE0 : ¬ (observeAll l).EarliestReceived.nsec = 0 := by
        intro h0
        exact hnz y (List.mem_append_left _ hy) (by rw [hyE]; exact (time_eq_zero_iff _).mpr h0)
      have hL0 : ¬ (observeAll l).LatestReceived.nsec = 0 := by
        intro h0
        exact hnz z (List.mem_append_left _ hz) (by rw [hzL]; exact (time_eq_zero_iff _).mpr h0)
      have ha : a ∈ l ++ [a] := by simp
      refine ⟨?_, ?_, ?_, ?_⟩
      · by_cases hgt : (observeAll l).EarliestReceived.nsec > a.WMReceived.nsec
        · rw [if_pos (Or.inr hgt)]; exact ⟨a, ha, rfl⟩
        · rw [if_neg (by rintro (h1 | h1); exact hE0 h1; exact hgt h1)]
          exact ⟨y, List.mem_append_left _ hy, hyE⟩
      · intro x hx
        by_cases hgt : (observeAll l).EarliestReceived.nsec > a.WMReceived.nsec
        · rw [if_pos (Or.inr hgt)]
          rcases List.mem_append.mp hx with hx | hx
          · have := hle x hx; omega
          · rw [List.mem_singleton] at hx
            subst hx; exact le_refl _
        · rw [if_neg (by rintro (h1 | h1); exact hE0 h1; exact hgt h1)]
          rcases List.mem_append.mp hx with hx | hx
          · exact hle x hx
          · rw [List.mem_singleton] at hx
            subst hx; omega
      · by_cases hlt : (observeAll l).LatestReceived.nsec < a.WMReceived.nsec
        · rw [if_pos (Or.inr hlt)]; exact ⟨a, ha, rfl⟩
        · rw [if_neg (by rintro (h1 | h1); exact hL0 h1; exact hlt h1)]
          exact ⟨z, List.mem_append_left _ hz, hzL⟩
      · intro x hx
        by_cases hlt : (observeAll l).LatestReceived.nsec < a.WMReceived.nsec
        · rw [if_pos (Or.inr hlt)]
          rcases List.mem_append.mp hx with hx | hx
          · have := hge x hx; omega
          · rw [List.mem_singleton] at hx
            subst hx; exact le_refl _
        · rw [if_neg (by rintro (h1 | h1); exact hL0 h1; exact hlt h1)]
          rcases List.mem_append.mp hx with hx | hx
          · exact hge x hx
          · rw [List.mem_singleton] at hx
            subst hx; omega

/-- Witness of C17: the mentions of `TestMetricsObserver_Update`; the earliest is the
timestamp of the first and the latest that of the second. -/
theorem observeAll_earliest_latest_witness :
    [mention2, mention1, mention2] ≠ [] ∧
    (∀ x ∈ [mention2, mention1, mention2], x.WMReceived ≠ {}) ∧
    (∀ x ∈ [mention2, mention1, mention2],
      (observeAll [mention2, mention1, mention2]).EarliestReceived.nsec
        ≤ x.WMReceived.nsec) ∧
    (∀ x ∈ [mention2, mention1, mention2],
      x.WMReceived.nsec
        ≤ (observeAll [mention2, mention1, mention2]).LatestReceived.nsec) :=
  ⟨by decide, by decide,
    (observeAll_earliest_latest [mention2, mention1, mention2] (by decide)
      (by decide)).2.1,
    (observeAll_earliest_latest [mention2, mention1, mention2] (by decide)
      (by decide)).2.2.2⟩

/-! ## C18 - C20: the command `fetch` -/

theorem recordErrors_of_all_none (results : List (Option String))
    (h : ∀ r ∈ results, r = none) : recordErrors results = none := by
  unfold recordErrors
  induction results with
  | nil => rfl
  | cons r rs ih =>
    have hr : r = none := h r (List.mem_cons_self _ _)
    subst hr
    simpa using ih (fun x hx => h x (List.mem_cons_of_mem _ hx))

theorem doFetch_nil_of_no_failure (PersistFunc : List Mention → Option String)
    (run : FetchRun) (sched : Schedule) (hf : run.err = none)
    (hp : ∀ batch ∈ (doFetch PersistFunc run sched).2, PersistFunc batch = none) :
    (doFetch PersistFunc run sched).1 = none := by
  have hsel : (if sched.fetchErrSeen then run.err else none) = none := by
    rw [hf]; simp
  have hb : (doFetch PersistFunc run sched).2
      = (groupByTarget run.sent).map (fun entry => entry.2) := by
    unfold doFetch
    simp only [hsel]
    split <;> rfl
  rw [hb] at hp
  have hrec : recordErrors (sched.written.filterMap (fun i =>
      (((groupByTarget run.sent).map (fun entry => entry.2)).map PersistFunc).get? i))
      = none := by
    apply recordErrors_of_all_none
    intro r hr
    rw [List.mem_filterMap] at hr
    obtain ⟨i, _, hi⟩ := hr
    have hmem := List.get?_mem hi
    rw [List.mem_map] at hmem
    obtain ⟨b, hb1, hb2⟩ := hmem
    rw [← hb2]
    exact hp b hb1
  unfold doFetch
  simp only [hsel, hrec]

theorem doFetch_fetch_error_unseen (PersistFunc : List Mention → Option String)
    (run : FetchRun) (written : List Nat)
    (hp : ∀ batch, PersistFunc batch = none) :
    (doFetch PersistFunc run { fetchErrSeen := false, written := written }).1 = none := by
  have hrec : recordErrors (written.filterMap (fun i =>
      (((groupByTarget run.sent).map (fun entry => entry.2)).map PersistFunc).get? i))
      = none := by
    apply recordErrors_of_all_none
    intro r hr
    rw [List.mem_filterMap] at hr
    obtain ⟨i, _, hi⟩ := hr
    have hmem := List.get?_mem hi
    rw [List.mem_map] at hmem
    obtain ⟨b, _, hb2⟩ := hmem
    rw [← hb2]
    exact hp b
  unfold doFetch
  simp only [Bool.false_eq_true, if_false, hrec]

/-- C18, the code at the failing input: `FetchFunc` is `DoFetch` over a client whose first
call fails; it sends nothing, closes the channel and returns an error. The test
`if fetchErr != nil` runs right after the `go` statement, before the goroutine has
returned, and `fetchErr` is not read again: `doFetch` returns nil. In the same way the
error of a persistence invocation is lost when `persistenceErr` is read before the
goroutine has stored it. -/
theorem doFetch_drops_fetch_error :
    runOfDoFetch (uncancelledEnv [.error "client fetch error"]) [0] 0
      = some { sent := [], err := some "error getting mentions: client fetch error" } ∧
    doFetch (fun _ => none)
      { sent := [], err := some "error getting mentions: client fetch error" }
      { fetchErrSeen := false, written := [] } = (none, []) ∧
    doFetch (fun _ => some "failed to save webmention: save error")
      { sent := [postMention], err := none }
      { fetchErrSeen := false, written := [] } = (none, [[postMention]]) := by
  decide

theorem addByTarget_map (F : String → List Mention) (m : Mention) (ks : List String)
    (hnd : ks.Nodup) (hF : m.WMTarget ∉ ks → F m.WMTarget = []) :
    addByTarget (ks.map (fun k => (k, F k))) m =
      (if m.WMTarget ∈ ks then ks else ks ++ [m.WMTarget]).map
        (fun k => (k, if k = m.WMTarget then F k ++ [m] else F k)) := by
  induction ks with
  | nil =>
    have h0 := hF (by simp)
    simp [addByTarget, h0]
  | cons k ks ih =>
    rw [List.nodup_cons] at hnd
    by_cases hk : k = m.WMTarget
    · subst hk
      have hcong : ks.map (fun k => (k, if k = m.WMTarget then F k ++ [m] else F k))
          = ks.map (fun k => (k, F k)) := by
        apply List.map_congr_left
        intro x hx
        have hne : x ≠ m.WMTarget := fun h => hnd.1 (h ▸ hx)
        simp [hne]
      simp [addByTarget, hcong]
    · have hk2 : ¬ m.WMTarget = k := fun h => hk h.symm
      have ih2 := ih hnd.2 (fun hnot => hF (by
        intro hmem
        rcases List.mem_cons.mp hmem with h | h
        · exact hk2 h
        · exact hnot h))
      simp only [List.map_cons, addByTarget, if_neg hk, ih2, List.mem_cons, hk2, false_or]
      split <;> simp [hk]

theorem groupByTarget_concat (l : List Mention) (a : Mention) :
    groupByTarget (l ++ [a]) = addByTarget (groupByTarget l) a := by
  unfold groupByTarget
  rw [List.foldl_append]
  rfl

theorem groupByTarget_eq (l : List Mention) :
    groupByTarget l =
      ((l.map (fun m => m.WMTarget)).reverse.dedup).reverse.map
        (fun t => (t, l.filter (fun m => decide (m.WMTarget = t)))) := by
  induction l using List.reverseRecOn with
  | nil => rfl
  | append_singleton l a ih =>
    rw [groupByTarget_concat, ih,
      addByTarget_map (fun t => l.filter (fun m => decide (m.WMTarget = t))) a _
        (List.nodup_reverse.mpr (List.nodup_dedup _)),
      List.map_append, List.map_singleton, ← append_new_eq]
    · apply List.map_congr_left
      intro t _
      by_cases ht : t = a.WMTarget
      · subst ht
        simp [List.filter_append]
      · have ht2 : ¬ a.WMTarget = t := fun h => ht h.symm
        simp [List.filter_append, ht, ht2]
    · intro hnot
      have hnot2 : a.WMTarget ∉ l.map (fun m => m.WMTarget) := by simpa using hnot
      rw [List.filter_eq_nil_iff]
      intro x hx hxt
      apply hnot2
      rw [List.mem_map]
      exact ⟨x, hx, by simpa using hxt⟩

/-- C19, the code at the failing input: two mentions of one page are fetched, one over
https and one over http. Both have the slug `post`, but the map `mentionsByTarget` is
keyed by `WMTarget` and gets two entries, so two persistence goroutines are started for
the one slug, each with one of the two records. Both `DoPersist` calls load and save
`data/webmentions/post.json`; running side by side both load the stored collection, one
saves the ids 9, 1 and the other the ids 9, 2, and whichever save comes last, a fetched
record is lost. -/
theorem doFetch_splits_one_slug :
    (groupByTarget [httpsMention, httpMention]).map (fun entry => entry.1)
      = ["https://example.com/post", "http://example.com/post"] ∧
    (doFetch (fun _ => none) { sent := [httpsMention, httpMention], err := none }
      { fetchErrSeen := false, written := [0, 1] }).2 = [[httpsMention], [httpMention]] ∧
    GenerateSlug schemeUrlParse httpsMention = ("post", none) ∧
    GenerateSlug schemeUrlParse httpMention = ("post", none) ∧
    DoPersist insertionSorter sharedPathEnv [] [httpsMention] =
      (none, [Event.load "data/webmentions/post.json",
        Event.save "data/webmentions/post.json" [storedMention, httpsMention],
        Event.wgDone]) ∧
    DoPersist insertionSorter sharedPathEnv [] [httpMention] =
      (none, [Event.load "data/webmentions/post.json",
        Event.save "data/webmentions/post.json" [storedMention, httpMention],
        Event.wgDone]) := by
  decide

/-- The batches of the model `doFetch`, in which every goroutine holds the batch of its own
iteration: when `doFetch` gets past its test of `fetchErr`, there is one batch per distinct
`WMTarget` of the fetched mentions, and the batch of a target holds the fetched mentions
with that target, all of them, in arrival order. The mentions of one batch have the same
slug. -/
theorem doFetch_batches_by_target (PersistFunc : List Mention → Option String)
    (run : FetchRun) (sched : Schedule)
    (h : sched.fetchErrSeen = false ∨ run.err = none) :
    ∃ targets : List String, targets.Nodup ∧
      (∀ t, t ∈ targets ↔ ∃ m ∈ run.sent, m.WMTarget = t) ∧
      (doFetch PersistFunc run sched).2 =
        targets.map (fun t => run.sent.filter (fun m => decide (m.WMTarget = t))) ∧
      (∀ urlParse, ∀ batch ∈ (doFetch PersistFunc run sched).2, ∀ x ∈ batch, ∀ y ∈ batch,
        GenerateSlug urlParse x = GenerateSlug urlParse y) := by
  have hsel : (if sched.fetchErrSeen then run.err else none) = none := by
    rcases h with h | h
    · rw [h]; simp
    · rw [h]; simp
  have hb : (doFetch PersistFunc run sched).2
      = ((run.sent.map (fun m => m.WMTarget)).reverse.dedup).reverse.map
          (fun t => run.sent.filter (fun m => decide (m.WMTarget = t))) := by
    have hb0 : (doFetch PersistFunc run sched).2
        = (groupByTarget run.sent).map (fun entry => entry.2) := by
      unfold doFetch
      simp only [hsel]
      split <;> rfl
    rw [hb0, groupByTarget_eq, List.map_map]
    rfl
  refine ⟨((run.sent.map (fun m => m.WMTarget)).reverse.dedup).reverse,
    List.nodup_reverse.mpr (List.nodup_dedup _), ?_, hb, ?_⟩
  · intro t
    simp
  · intro urlParse batch hbatch x hx y hy
    rw [hb, List.mem_map] at hbatch
    obtain ⟨t, _, ht⟩ := hbatch
    rw [← ht, List.mem_filter] at hx hy
    have hxt : x.WMTarget = t := by simpa using hx.2
    have hyt : y.WMTarget = t := by simpa using hy.2
    unfold GenerateSlug
    rw [hxt, hyt]

/-- An instance of `doFetch_batches_by_target`: three mentions on two targets, the first and
the third on the same one. -/
theorem doFetch_batches_by_target_witness :
    (({ fetchErrSeen := false, written := [0, 1] } : Schedule).fetchErrSeen = false ∨
      ({ sent := [httpsMention, httpMention, { httpsMention with WMID := 3 }],
         err := none } : FetchRun).err = none) ∧
    ∃ targets : List String, targets.Nodup ∧
      (doFetch (fun _ => none)
        { sent := [httpsMention, httpMention, { httpsMention with WMID := 3 }],
          err := none }
        { fetchErrSeen := false, written := [0, 1] }).2 =
        targets.map (fun t =>
          ({ sent := [httpsMention, httpMention, { httpsMention with WMID := 3 }],
             err := none } : FetchRun).sent.filter (fun m => decide (m.WMTarget = t))) :=
  ⟨Or.inl rfl,
    (doFetch_batches_by_target (fun _ => none)
      { sent := [httpsMention, httpMention, { httpsMention with WMID := 3 }], err := none }
      { fetchErrSeen := false, written := [0, 1] } (Or.inl rfl)).imp
      (fun _ h => ⟨h.1, h.2.2.1⟩)⟩

theorem NewFetchContext_commandContext
    (ReadFileFunc : String → Except FileError (List UInt8))
    (jsonUnmarshal : List UInt8 → State × Option String)
    (token domain destination : String) (stateFile : Option String)
    (pageSize : Option Int) :
    NewFetchContext ReadFileFunc jsonUnmarshal
        (commandContext token domain destination stateFile pageSize) =
      .ok { Domain := domain, Token := token, PageSize := pageSize.getD 10, State := {} } := by
  have hs : cliString (commandContext token domain destination stateFile pageSize)
      "fetchState-file" = "" := by
    simp [cliString, commandContext, List.lookup]
  have hd : cliString (commandContext token domain destination stateFile pageSize)
      "domain" = domain := by
    simp [cliString, commandContext, List.lookup]
  have ht : cliString (commandContext token domain destination stateFile pageSize)
      "token" = token := by
    simp [cliString, commandContext, List.lookup]
  have hp : cliInt (commandContext token domain destination stateFile pageSize)
      "page-size" = pageSize.getD 10 := by
    simp [cliInt, commandContext, List.lookup]
  unfold NewFetchContext
  simp only [hs, hd, ht, hp, ReadState]
  rfl

/-- C20, the code at the failing input: the flag `state-file` has its default value and
the file it names holds the watermark 123, which `ReadState` reads from it.
`NewFetchContext` asks the CLI context for a flag named `fetchState-file`; there is no
such flag, the path is empty, `ReadState` reads nothing, and `State.SinceID` is 0.
`Domain`, `Token` and `PageSize` are those of the flags. -/
theorem NewFetchContext_ignores_state_file :
    cliString (commandContext "secret" "example.com" "out" none none) "state-file"
      = "./fetch.webmentions.state" ∧
    ReadState readStateFile stateUnmarshal "./fetch.webmentions.state"
      = ({ SinceID := 123 }, none) ∧
    NewFetchContext readStateFile stateUnmarshal
        (commandContext "secret" "example.com" "out" none none) =
      .ok { Domain := "example.com", Token := "secret", PageSize := 10,
            State := { SinceID := 0 } } := by
  refine ⟨by decide, by decide, ?_⟩
  rfl

/-! ## C22: `GenerateSlug` and the trimming of separators -/

theorem replaceScan_no_slash (new l : List Char) (h : '/' ∉ new) :
    '/' ∉ replaceScan ['/'] new 0 l := by
  induction l with
  | nil => simp [replaceScan]
  | cons c cs ih =>
    by_cases hc : c = '/'
    · subst hc
      simp [replaceScan, List.isPrefixOf, ih, h]
    · have hc2 : ¬ ('/' = c) := fun h => hc h.symm
      simp [replaceScan, List.isPrefixOf, ih, hc2]

theorem trimSuffix_subset (s suf : String) (c : Char) (h : c ∈ (TrimSuffix s suf).data) :
    c ∈ s.data := by
  unfold TrimSuffix at h
  split at h
  · exact List.mem_of_mem_take h
  · exact h

theorem replaceAll_slash_data (s : String) :
    (ReplaceAll s "/" "--").data = replaceScan ['/'] ['-', '-'] 0 s.data := by
  unfold ReplaceAll
  have hs : ("/" : String).data = ['/'] := rfl
  have hd : ("--" : String).data = ['-', '-'] := rfl
  rw [hs, hd, if_neg (by simp)]

theorem replaceScan_getLast (new core : List Char) (c : Char)
    (h : core.getLast? = some c) (hc : c ≠ '/') :
    (replaceScan ['/'] new 0 core).getLast? = some c := by
  obtain ⟨ys, hys⟩ := List.getLast?_eq_some_iff.mp h
  have hnot : '/' ∉ [c] := by
    intro hm
    rw [List.mem_singleton] at hm
    exact hc hm.symm
  rw [hys, replaceScan_slash_append, replaceScan_slash_of_not_mem new [c] hnot]
  exact List.getLast?_concat _

theorem trimSuffix_append_dashes (a : List Char) :
    TrimSuffix (String.mk (a ++ ['-', '-'])) "--" = String.mk a := by
  unfold TrimSuffix
  have hd : ("--" : String).data = ['-', '-'] := rfl
  rw [hd]
  have hsuf : (['-', '-'].isSuffixOf (a ++ ['-', '-'])) = true := by
    rw [List.isSuffixOf_iff_suffix]
    exact List.suffix_append _ _
  simp only [hsuf, if_true]
  congr 1
  simp

theorem trimPrefix_of_head (s : String) (c : Char) (cs : List Char)
    (hs : s.data = c :: cs) (hc : c ≠ '/') : TrimPrefix s "/" = s := by
  unfold TrimPrefix
  have hsl : ("/" : String).data = ['/'] := rfl
  have hc2 : ¬ ('/' = c) := fun h => hc h.symm
  rw [hsl, hs]
  simp [List.isPrefixOf, hc2]

theorem trim_slash_core (lead trail : List Char) (c0 cl : Char) (cs ys : List Char)
    (hlead : lead = [] ∨ lead = ['/']) (htrail : trail = [] ∨ trail = ['/'])
    (h0 : c0 ≠ '/') (hl : cl ≠ '/') (hcore : c0 :: cs = ys ++ [cl]) :
    Trim (String.mk (lead ++ (c0 :: cs) ++ trail)) "/" = String.mk (c0 :: cs) := by
  unfold Trim
  have hsl : ("/" : String).data = ['/'] := rfl
  have hP0 : (['/'].contains c0) = false := by simp [h0]
  have hPl : (['/'].contains cl) = false := by simp [hl]
  have hPs : (['/'].contains '/') = true := by simp
  rw [hsl]
  congr 1
  have hdrop : (lead ++ (c0 :: cs) ++ trail).dropWhile (fun c => ['/'].contains c)
      = (c0 :: cs) ++ trail := by
    rcases hlead with h | h <;> subst h
    · simp only [List.nil_append, List.cons_append, List.dropWhile_cons, hP0]
      simp
    · simp only [List.cons_append, List.nil_append, List.dropWhile_cons, hPs, hP0]
      simp
  show (((lead ++ (c0 :: cs) ++ trail).dropWhile (fun c => ['/'].contains c)).reverse.dropWhile
    (fun c => ['/'].contains c)).reverse = c0 :: cs
  rw [hdrop, hcore]
  rcases htrail with h | h <;> subst h
  · simp only [List.append_nil, List.reverse_append, List.reverse_cons, List.reverse_nil,
      List.nil_append, List.cons_append, List.dropWhile_cons, hPl]
    simp
  · simp only [List.reverse_append, List.reverse_cons, List.reverse_nil,
      List.nil_append, List.cons_append, List.dropWhile_cons, hPl, hPs]
    simp

theorem slug_of_core (lead trail : List Char) (c0 cl : Char) (cs ys : List Char)
    (hlead : lead = [] ∨ lead = ['/']) (htrail : trail = [] ∨ trail = ['/'])
    (h0 : c0 ≠ '/') (hl : cl ≠ '/') (hd : cl ≠ '-') (hcore : c0 :: cs = ys ++ [cl]) :
    TrimSuffix (ReplaceAll (TrimPrefix (String.mk (lead ++ (c0 :: cs) ++ trail)) "/")
      "/" "--") "--" = String.mk (replaceScan ['/'] ['-', '-'] 0 (c0 :: cs)) := by
  have hq : TrimPrefix (String.mk (lead ++ (c0 :: cs) ++ trail)) "/"
      = String.mk ((c0 :: cs) ++ trail) := by
    rcases hlead with h | h <;> subst h
    · exact trimPrefix_of_head _ c0 (cs ++ trail) rfl h0
    · exact trimPrefix_slash (String.mk ((c0 :: cs) ++ trail))
  have hr : ReplaceAll (String.mk ((c0 :: cs) ++ trail)) "/" "--"
      = String.mk (replaceScan ['/'] ['-', '-'] 0 (c0 :: cs)
          ++ replaceScan ['/'] ['-', '-'] 0 trail) := by
    apply String.ext
    rw [replaceAll_slash_data]
    exact replaceScan_slash_append _ _ _
  have hlast : (replaceScan ['/'] ['-', '-'] 0 (c0 :: cs)).getLast? = some cl := by
    apply replaceScan_getLast _ _ _ _ hl
    rw [hcore]
    exact List.getLast?_concat _
  rw [hq, hr]
  rcases htrail with h | h <;> subst h
  · have hnil : replaceScan ['/'] ['-', '-'] 0 [] = [] := by simp [replaceScan]
    rw [hnil, List.append_nil]
    apply trimSuffix_of_last
    show (replaceScan ['/'] ['-', '-'] 0 (c0 :: cs)).getLast? ≠ some '-'
    rw [hlast]
    intro hc
    exact hd (Option.some.inj hc)
  · rw [replaceScan_slash_single]
    exact trimSuffix_append_dashes _

/-- C22, as stated, fails: `GenerateSlug` removes one leading `/` and one trailing `--`,
not all of them, and it removes a trailing `--` that belongs to a segment. The path
`//post` gives `--post` and the path `/post//` gives `post--`, where trimming all the
separators gives `post`; the path `/a--` gives `a`, where the specified slug is `a--`. -/
theorem GenerateSlug_trims_one_separator :
    GenerateSlug slashUrlParse { WMTarget := "https://example.com//post" }
      = ("--post", none) ∧
    specSlug "//post" = "post" ∧
    GenerateSlug slashUrlParse { WMTarget := "https://example.com/post//" }
      = ("post--", none) ∧
    specSlug "/post//" = "post" ∧
    GenerateSlug slashUrlParse { WMTarget := "https://example.com/a--" } = ("a", none) ∧
    specSlug "/a--" = "a--" := by
  decide

/-- C22, amended: for every mention whose target parses as a URL, `GenerateSlug` returns,
with a nil error, the path of the URL with one leading `/` removed if there is one, every
remaining `/` replaced by `--`, and then one trailing `--` removed if there is one; the
slug contains no `/`. When the path is a core with at most one `/` before it and at most
one `/` after it, where the core neither begins nor ends with `/` and does not end with
`-`, then the core is the path with all its leading and trailing separators trimmed, the
slug is the core with every `/` replaced by `--` (the slug of the specification), and it
does not end with `--`. -/
theorem GenerateSlug_trims_once (urlParse : String → Except String URL) (m : Mention)
    (u : URL) (hparse : urlParse m.WMTarget = .ok u) :
    GenerateSlug urlParse m
      = (TrimSuffix (ReplaceAll (TrimPrefix u.Path "/") "/" "--") "--", none) ∧
    '/' ∉ (GenerateSlug urlParse m).1.data ∧
    (∀ lead core trail : String, (lead = "" ∨ lead = "/") → (trail = "" ∨ trail = "/") →
      core.data.head? ≠ some '/' → core.data.getLast? ≠ some '/' →
      core.data.getLast? ≠ some '-' → u.Path = lead ++ core ++ trail →
      Trim u.Path "/" = core ∧
      (GenerateSlug urlParse m).1 = specSlug u.Path ∧
      ¬ (("--" : String).data <:+ (GenerateSlug urlParse m).1.data)) := by
  have hgen : GenerateSlug urlParse m
      = (TrimSuffix (ReplaceAll (TrimPrefix u.Path "/") "/" "--") "--", none) := by
    unfold GenerateSlug
    rw [hparse]
  refine ⟨hgen, ?_, ?_⟩
  · rw [hgen]
    intro hmem
    have h1 := trimSuffix_subset _ _ _ hmem
    rw [replaceAll_slash_data] at h1
    exact replaceScan_no_slash _ _ (by decide) h1
  · intro lead core trail hlead htrail hhead hlast1 hlast2 hpath
    rw [hgen]
    simp only
    have hL : lead.data = [] ∨ lead.data = ['/'] := by
      rcases hlead with h | h <;> subst h
      · exact Or.inl rfl
      · exact Or.inr rfl
    have hT : trail.data = [] ∨ trail.data = ['/'] := by
      rcases htrail with h | h <;> subst h
      · exact Or.inl rfl
      · exact Or.inr rfl
    have hP : u.Path = String.mk (lead.data ++ core.data ++ trail.data) := by
      apply String.ext
      rw [hpath]
      simp [String.data_append]
    rcases core with ⟨cd⟩
    cases cd with
    | nil =>
      rw [hP]
      rcases hL with h1 | h1 <;> rcases hT with h2 | h2 <;> rw [h1, h2] <;> decide
    | cons c0 cs =>
      have h0 : c0 ≠ '/' := by
        intro h
        apply hhead
        simp [h]
      obtain ⟨cl, hcl⟩ : ∃ cl, (c0 :: cs).getLast? = some cl := by
        cases hg : (c0 :: cs).getLast? with
        | none => simp at hg
        | some x => exact ⟨x, rfl⟩
      have hl : cl ≠ '/' := by
        intro h
        apply hlast1
        simp only
        rw [hcl, h]
      have hd : cl ≠ '-' := by
        intro h
        apply hlast2
        simp only
        rw [hcl, h]
      obtain ⟨ys, hys⟩ := List.getLast?_eq_some_iff.mp hcl
      have htrim := trim_slash_core lead.data trail.data c0 cl cs ys hL hT h0 hl hys
      have hslug := slug_of_core lead.data trail.data c0 cl cs ys hL hT h0 hl hd hys
      simp only at hP
      rw [hP]
      refine ⟨htrim, ?_, ?_⟩
      · rw [hslug]
        unfold specSlug
        rw [htrim]
        apply String.ext
        rw [replaceAll_slash_data]
      · rw [hslug]
        intro hsuf
        have hlastR : (replaceScan ['/'] ['-', '-'] 0 (c0 :: cs)).getLast? = some cl :=
          replaceScan_getLast _ _ _ hcl hl
        obtain ⟨pre, hpre⟩ := hsuf
        have hpre2 : pre ++ ['-', '-'] = replaceScan ['/'] ['-', '-'] 0 (c0 :: cs) := hpre
        rw [← hpre2] at hlastR
        simp at hlastR
        exact hd hlastR.symm

/-- Witness of the amended C22: the target of `TestMention_GenerateSlug`, whose path is the
core `path/to-the_post.html` after one `/`. -/
theorem GenerateSlug_trims_once_witness :
    testUrlParse postMention.WMTarget
      = .ok { Scheme := "https", Host := "example.com", Path := "/path/to-the_post.html" } ∧
    '/' ∉ (GenerateSlug testUrlParse postMention).1.data ∧
    Trim "/path/to-the_post.html" "/" = "path/to-the_post.html" ∧
    (GenerateSlug testUrlParse postMention).1 = specSlug "/path/to-the_post.html" :=
  ⟨rfl,
    (GenerateSlug_trims_once testUrlParse postMention
      { Scheme := "https", Host := "example.com", Path := "/path/to-the_post.html" }
      rfl).2.1,
    ((GenerateSlug_trims_once testUrlParse postMention
      { Scheme := "https", Host := "example.com", Path := "/path/to-the_post.html" }
      rfl).2.2 "/" "path/to-the_post.html" "" (Or.inr rfl) (Or.inl rfl)
      (by decide) (by decide) (by decide) (by decide)).1,
    ((GenerateSlug_trims_once testUrlParse postMention
      { Scheme := "https", Host := "example.com", Path := "/path/to-the_post.html" }
      rfl).2.2 "/" "path/to-the_post.html" "" (Or.inr rfl) (Or.inl rfl)
      (by decide) (by decide) (by decide) (by decide)).2.1⟩

end Webmention
